import Mathlib

/-!
Verification of the market-analyzer core against its specification.

Python `Decimal` values are modelled as `ℚ`, machine integers as `ℤ`/`ℕ`
(none of the verified paths overflow-sensitive), dictionaries as
association lists or as functions with the `dict.get(k, default)`
semantics, and fallible parsing as `Option`.
-/

namespace MarketAnalyzer

/-! ## VWAP simulation (src/core/vwap.py) -/

/-- Result record of a VWAP simulation (`SimResult` in `src/core/vwap.py`). -/
structure SimResult where
  base_out : ℚ
  quote_out : ℚ
  avg_price : ℚ
  slippage_bps : ℚ
  deriving DecidableEq, Repr

/-- The accumulation loop of `simulate_buy_with_notional`: walk the ask levels
in order with remaining notional `r`; at a level `(price, qty)` with
`price > 0` and `qty > 0` take `min qty (r / price)`, spend `take * price`;
skip non-positive levels; stop once `r ≤ 0`.  Returns
`(base_got, quote_spent)`. -/
def walkBuy : List (ℚ × ℚ) → ℚ → ℚ × ℚ
  | [], _ => (0, 0)
  | (p, q) :: rest, r =>
    if r ≤ 0 then (0, 0)
    else if p ≤ 0 ∨ q ≤ 0 then walkBuy rest r
    else
      let take := min q (r / p)
      let w := walkBuy rest (r - take * p)
      (take + w.1, take * p + w.2)

/-- `simulate_buy_with_notional(asks, notional)` from `src/core/vwap.py`:
`None` on empty asks, non-positive notional, or zero fill; otherwise the
walk totals with `avg_price = quote/base` and
`slippage_bps = (avg_price/best_ask - 1) * 10000` where `best_ask` is the
price of the first row. -/
def simulate_buy_with_notional (asks : List (ℚ × ℚ)) (notional : ℚ) : Option SimResult :=
  match asks with
  | [] => none
  | (bp, _) :: _ =>
    if notional ≤ 0 then none
    else
      let w := walkBuy asks notional
      if w.1 = 0 then none
      else some ⟨w.1, w.2, w.2 / w.1, (w.2 / w.1 / bp - 1) * 10000⟩

/-- The accumulation loop of `simulate_sell_base`: walk the bid levels in
order with remaining base `r`; at a level `(price, qty)` with positive price
and qty take `min qty r`, receive `take * price`; skip non-positive levels;
stop once `r ≤ 0`.  Returns `(base_sold, quote_got)`. -/
def walkSell : List (ℚ × ℚ) → ℚ → ℚ × ℚ
  | [], _ => (0, 0)
  | (p, q) :: rest, r =>
    if r ≤ 0 then (0, 0)
    else if p ≤ 0 ∨ q ≤ 0 then walkSell rest r
    else
      let take := min q r
      let w := walkSell rest (r - take)
      (take + w.1, take * p + w.2)

/-- `simulate_sell_base(bids, base_amount)` from `src/core/vwap.py`. -/
def simulate_sell_base (bids : List (ℚ × ℚ)) (base_amount : ℚ) : Option SimResult :=
  match bids with
  | [] => none
  | (bp, _) :: _ =>
    if base_amount ≤ 0 then none
    else
      let w := walkSell bids base_amount
      if w.1 = 0 then none
      else some ⟨w.1, w.2, w.2 / w.1, (1 - w.2 / w.1 / bp) * 10000⟩

/-- Per-level fills `(price, take)` produced by the buy walk, written as the
spec describes them: at each level take `min qty (remaining/price)`. -/
def buyFills : List (ℚ × ℚ) → ℚ → List (ℚ × ℚ)
  | [], _ => []
  | (p, q) :: rest, r =>
    if r ≤ 0 then []
    else if p ≤ 0 ∨ q ≤ 0 then buyFills rest r
    else
      let take := min q (r / p)
      (p, take) :: buyFills rest (r - take * p)

theorem walkBuy_nil (r : ℚ) : walkBuy [] r = (0, 0) := rfl

theorem walkBuy_nonpos {r : ℚ} (l : List (ℚ × ℚ)) (hr : r ≤ 0) : walkBuy l r = (0, 0) := by
  cases l with
  | nil => rfl
  | cons a rest => obtain ⟨p, q⟩ := a; simp [walkBuy, hr]

theorem walkBuy_nonneg (l : List (ℚ × ℚ)) (r : ℚ) :
    0 ≤ (walkBuy l r).1 ∧ 0 ≤ (walkBuy l r).2 := by
  induction l generalizing r with
  | nil => simp [walkBuy]
  | cons a rest ih =>
    obtain ⟨p, q⟩ := a
    by_cases hr : r ≤ 0
    · simp [walkBuy, hr]
    · by_cases hs : p ≤ 0 ∨ q ≤ 0
      · simpa [walkBuy, hr, hs] using ih r
      · have hs' := hs
        push_neg at hs'
        have hp : 0 < p := hs'.1
        have hq : 0 < q := hs'.2
        have hr' : 0 < r := lt_of_not_ge hr
        have htake : 0 ≤ min q (r / p) :=
          le_min hq.le (div_nonneg hr'.le hp.le)
        have := ih (r - min q (r / p) * p)
        constructor
        · simp only [walkBuy, if_neg hr, if_neg hs]
          exact add_nonneg htake this.1
        · simp only [walkBuy, if_neg hr, if_neg hs]
          exact add_nonneg (mul_nonneg htake hp.le) this.2

/-- The buy walk's totals are the sums of the per-level fills. -/
theorem walkBuy_eq_fills (l : List (ℚ × ℚ)) (r : ℚ) :
    (walkBuy l r).1 = ((buyFills l r).map Prod.snd).sum ∧
      (walkBuy l r).2 = ((buyFills l r).map (fun e => e.2 * e.1)).sum := by
  induction l generalizing r with
  | nil => simp [walkBuy, buyFills]
  | cons a rest ih =>
    obtain ⟨p, q⟩ := a
    by_cases hr : r ≤ 0
    · simp [walkBuy, buyFills, hr]
    · by_cases hs : p ≤ 0 ∨ q ≤ 0
      · simpa [walkBuy, buyFills, hr, hs] using ih r
      · have := ih (r - min q (r / p) * p)
        constructor
        · simp only [walkBuy, buyFills, if_neg hr, if_neg hs, List.map_cons, List.sum_cons]
          rw [this.1]
        · simp only [walkBuy, buyFills, if_neg hr, if_neg hs, List.map_cons, List.sum_cons]
          rw [this.2]

theorem walkBuy_mono (l : List (ℚ × ℚ)) {r1 r2 : ℚ} (h : r1 ≤ r2) :
    (walkBuy l r1).1 ≤ (walkBuy l r2).1 ∧ (walkBuy l r1).2 ≤ (walkBuy l r2).2 := by
  induction l generalizing r1 r2 with
  | nil => simp [walkBuy]
  | cons a rest ih =>
    obtain ⟨p, q⟩ := a
    by_cases hr2 : r2 ≤ 0
    · rw [walkBuy_nonpos _ (le_trans h hr2), walkBuy_nonpos _ hr2]
      exact ⟨le_refl 0, le_refl 0⟩
    · by_cases hr1 : r1 ≤ 0
      · rw [walkBuy_nonpos ((p, q) :: rest) hr1]
        exact walkBuy_nonneg ((p, q) :: rest) r2
      · by_cases hs : p ≤ 0 ∨ q ≤ 0
        · simpa [walkBuy, hr1, hr2, hs] using ih h
        · have hs' := hs
          push_neg at hs'
          have hp : 0 < p := hs'.1
          have ht : min q (r1 / p) ≤ min q (r2 / p) :=
            min_le_min (le_refl q) ((div_le_div_iff_of_pos_right hp).mpr h)
          have hspent : ∀ r : ℚ, min q (r / p) * p = min (q * p) r := by
            intro r
            rw [min_mul_of_nonneg _ _ hp.le, div_mul_cancel₀ _ (ne_of_gt hp)]
          have hrem : r1 - min q (r1 / p) * p ≤ r2 - min q (r2 / p) * p := by
            rw [hspent r1, hspent r2]
            rcases le_total (q * p) r1 with h1 | h1 <;> rcases le_total (q * p) r2 with h2 | h2 <;>
              simp [min_eq_left, min_eq_right, h1, h2] <;> linarith
          have hrest := ih hrem
          constructor
          · simp only [walkBuy, if_neg hr1, if_neg hr2, if_neg hs]
            exact add_le_add ht hrest.1
          · simp only [walkBuy, if_neg hr1, if_neg hr2, if_neg hs]
            exact add_le_add (mul_le_mul_of_nonneg_right ht hp.le) hrest.2

/-- If every positive-price, positive-qty level in `l` has price at least `c`,
then the quote spent by the buy walk is at least `c` times the base bought. -/
theorem walkBuy_spent_ge (l : List (ℚ × ℚ)) (c r : ℚ)
    (hc : ∀ p q, (p, q) ∈ l → 0 < p → 0 < q → c ≤ p) :
    c * (walkBuy l r).1 ≤ (walkBuy l r).2 := by
  induction l generalizing r with
  | nil => simp [walkBuy]
  | cons a rest ih =>
    obtain ⟨p, q⟩ := a
    have hcrest : ∀ p' q', (p', q') ∈ rest → 0 < p' → 0 < q' → c ≤ p' := by
      intro p' q' hm
      exact hc p' q' (List.mem_cons_of_mem _ hm)
    by_cases hr : r ≤ 0
    · simp [walkBuy_nonpos _ hr]
    · by_cases hs : p ≤ 0 ∨ q ≤ 0
      · simpa [walkBuy, hr, hs] using ih r hcrest
      · have hs' := hs
        push_neg at hs'
        have hp : 0 < p := hs'.1
        have hq : 0 < q := hs'.2
        have hcp : c ≤ p := hc p q (List.mem_cons_self _ _) hp hq
        have htake : 0 ≤ min q (r / p) :=
          le_min hq.le (div_nonneg (lt_of_not_ge hr).le hp.le)
        have hrest := ih (r - min q (r / p) * p) hcrest
        simp only [walkBuy, if_neg hr, if_neg hs]
        have h1 : c * min q (r / p) ≤ min q (r / p) * p := by
          calc c * min q (r / p) = min q (r / p) * c := by ring
            _ ≤ min q (r / p) * p := mul_le_mul_of_nonneg_left hcp htake
        calc c * (min q (r / p) + (walkBuy rest (r - min q (r / p) * p)).1)
            = c * min q (r / p) + c * (walkBuy rest (r - min q (r / p) * p)).1 := by ring
          _ ≤ min q (r / p) * p + (walkBuy rest (r - min q (r / p) * p)).2 :=
              add_le_add h1 hrest

/-- If every positive-price, positive-qty level in `l` has price at least `c`,
then the extra quote spent when the notional grows from `r1` to `r2` is at
least `c` times the extra base bought. -/
theorem walkBuy_incr_ge (l : List (ℚ × ℚ)) (c : ℚ) {r1 r2 : ℚ}
    (hc : ∀ p q, (p, q) ∈ l → 0 < p → 0 < q → c ≤ p) (h : r1 ≤ r2) :
    c * ((walkBuy l r2).1 - (walkBuy l r1).1) ≤ (walkBuy l r2).2 - (walkBuy l r1).2 := by
  induction l generalizing r1 r2 with
  | nil => simp [walkBuy]
  | cons a rest ih =>
    obtain ⟨p, q⟩ := a
    have hcrest : ∀ p' q', (p', q') ∈ rest → 0 < p' → 0 < q' → c ≤ p' := by
      intro p' q' hm
      exact hc p' q' (List.mem_cons_of_mem _ hm)
    by_cases hr2 : r2 ≤ 0
    · rw [walkBuy_nonpos _ (le_trans h hr2), walkBuy_nonpos _ hr2]
      simp
    · by_cases hr1 : r1 ≤ 0
      · rw [walkBuy_nonpos ((p, q) :: rest) hr1]
        simpa using walkBuy_spent_ge ((p, q) :: rest) c r2 hc
      · by_cases hs : p ≤ 0 ∨ q ≤ 0
        · simpa [walkBuy, hr1, hr2, hs] using ih hcrest h
        · have hs' := hs
          push_neg at hs'
          have hp : 0 < p := hs'.1
          have hq : 0 < q := hs'.2
          have hcp : c ≤ p := hc p q (List.mem_cons_self _ _) hp hq
          have ht : min q (r1 / p) ≤ min q (r2 / p) :=
            min_le_min (le_refl q) ((div_le_div_iff_of_pos_right hp).mpr h)
          have hspent : ∀ r : ℚ, min q (r / p) * p = min (q * p) r := by
            intro r
            rw [min_mul_of_nonneg _ _ hp.le, div_mul_cancel₀ _ (ne_of_gt hp)]
          have hrem : r1 - min q (r1 / p) * p ≤ r2 - min q (r2 / p) * p := by
            rw [hspent r1, hspent r2]
            rcases le_total (q * p) r1 with h1 | h1 <;> rcases le_total (q * p) r2 with h2 | h2 <;>
              simp [min_eq_left, min_eq_right, h1, h2] <;> linarith
          have hrest := ih hcrest hrem
          simp only [walkBuy, if_neg hr1, if_neg hr2, if_neg hs]
          have hterm : c * (min q (r2 / p) - min q (r1 / p)) ≤
              min q (r2 / p) * p - min q (r1 / p) * p := by
            have : (min q (r2 / p) - min q (r1 / p)) * c ≤
                (min q (r2 / p) - min q (r1 / p)) * p :=
              mul_le_mul_of_nonneg_left hcp (by linarith)
            nlinarith [this]
          nlinarith [hterm, hrest]

theorem buyRem_mono {p q r1 r2 : ℚ} (hp : 0 < p) (h : r1 ≤ r2) :
    r1 - min q (r1 / p) * p ≤ r2 - min q (r2 / p) * p := by
  have hspent : ∀ r : ℚ, min q (r / p) * p = min (q * p) r := by
    intro r
    rw [min_mul_of_nonneg _ _ hp.le, div_mul_cancel₀ _ (ne_of_gt hp)]
  rw [hspent r1, hspent r2]
  rcases le_total (q * p) r1 with h1 | h1 <;> rcases le_total (q * p) r2 with h2 | h2 <;>
    simp [min_eq_left, min_eq_right, h1, h2] <;> linarith

/-- Cross-multiplied average-price monotonicity for the buy walk: with ask
levels sorted by non-decreasing price, a larger notional never yields a
smaller average price. -/
theorem walkBuy_avg_cross (l : List (ℚ × ℚ))
    (hsort : List.Pairwise (fun a b : ℚ × ℚ => a.1 ≤ b.1) l) {r1 r2 : ℚ} (h : r1 ≤ r2) :
    (walkBuy l r1).2 * (walkBuy l r2).1 ≤ (walkBuy l r2).2 * (walkBuy l r1).1 := by
  induction l generalizing r1 r2 with
  | nil => simp [walkBuy]
  | cons a rest ih =>
    obtain ⟨p, q⟩ := a
    rw [List.pairwise_cons] at hsort
    obtain ⟨hhead, hrest_sort⟩ := hsort
    by_cases hr2 : r2 ≤ 0
    · rw [walkBuy_nonpos _ (le_trans h hr2), walkBuy_nonpos _ hr2]
    · by_cases hr1 : r1 ≤ 0
      · rw [walkBuy_nonpos ((p, q) :: rest) hr1]
        simp
      · by_cases hs : p ≤ 0 ∨ q ≤ 0
        · simpa [walkBuy, hr1, hr2, hs] using ih hrest_sort h
        · have hs' := hs
          push_neg at hs'
          have hp : 0 < p := hs'.1
          have hq : 0 < q := hs'.2
          have hr1' : 0 < r1 := lt_of_not_ge hr1
          have hprest : ∀ p' q', (p', q') ∈ rest → 0 < p' → 0 < q' → p ≤ p' := by
            intro p' q' hm _ _
            exact hhead (p', q') hm
          have ht : min q (r1 / p) ≤ min q (r2 / p) :=
            min_le_min (le_refl q) ((div_le_div_iff_of_pos_right hp).mpr h)
          have ht1 : 0 ≤ min q (r1 / p) :=
            le_min hq.le (div_nonneg hr1'.le hp.le)
          have hrem := buyRem_mono (q := q) hp h
          have hIH := ih hrest_sort hrem
          simp only [walkBuy, if_neg hr1, if_neg hr2, if_neg hs]
          rcases eq_or_lt_of_le ht with heq | hlt
          · -- same take at the head level: compare the tails level by level
            have hkey := walkBuy_incr_ge rest p hprest hrem
            set t1 := min q (r1 / p) with ht1def
            set t2 := min q (r2 / p) with ht2def
            set w1 := walkBuy rest (r1 - t1 * p) with hw1def
            set w2 := walkBuy rest (r2 - t2 * p) with hw2def
            have ht2 : 0 ≤ t2 := le_trans ht1 ht
            have hlin : p * w2.1 + w1.2 ≤ p * w1.1 + w2.2 := by linarith [hkey]
            have hmul := mul_le_mul_of_nonneg_left hlin ht2
            rw [← heq]
            nlinarith [hmul, hIH]
          · -- the head level was only partially filled at notional r1,
            -- so the tail walk at r1 is empty
            have ht1q : min q (r1 / p) < q := lt_of_lt_of_le hlt (min_le_left _ _)
            have ht1eq : min q (r1 / p) = r1 / p := by
              rcases min_cases q (r1 / p) with ⟨he, _⟩ | ⟨he, _⟩
              · exact absurd he (by intro hc; exact absurd hc (ne_of_lt ht1q))
              · exact he
            have hrem1 : r1 - min q (r1 / p) * p = 0 := by
              rw [ht1eq, div_mul_cancel₀ _ (ne_of_gt hp)]
              ring
            have hw1z : walkBuy rest (r1 - min q (r1 / p) * p) = (0, 0) := by
              rw [hrem1]
              exact walkBuy_nonpos rest (le_refl 0)
            have hspent2 := walkBuy_spent_ge rest p (r2 - min q (r2 / p) * p) hprest
            rw [hw1z]
            nlinarith [hspent2, ht1, mul_le_mul_of_nonneg_left hspent2 ht1]

theorem walkSell_nonpos {r : ℚ} (l : List (ℚ × ℚ)) (hr : r ≤ 0) : walkSell l r = (0, 0) := by
  cases l with
  | nil => rfl
  | cons a rest => obtain ⟨p, q⟩ := a; simp [walkSell, hr]

theorem walkSell_nonneg (l : List (ℚ × ℚ)) (r : ℚ) :
    0 ≤ (walkSell l r).1 ∧ 0 ≤ (walkSell l r).2 := by
  induction l generalizing r with
  | nil => simp [walkSell]
  | cons a rest ih =>
    obtain ⟨p, q⟩ := a
    by_cases hr : r ≤ 0
    · simp [walkSell, hr]
    · by_cases hs : p ≤ 0 ∨ q ≤ 0
      · simpa [walkSell, hr, hs] using ih r
      · have hs' := hs
        push_neg at hs'
        have htake : 0 ≤ min q r := le_min hs'.2.le (lt_of_not_ge hr).le
        have hrest := ih (r - min q r)
        constructor
        · simp only [walkSell, if_neg hr, if_neg hs]
          exact add_nonneg htake hrest.1
        · simp only [walkSell, if_neg hr, if_neg hs]
          exact add_nonneg (mul_nonneg htake hs'.1.le) hrest.2

theorem sellRem_mono {q r1 r2 : ℚ} (h : r1 ≤ r2) : r1 - min q r1 ≤ r2 - min q r2 := by
  rcases le_total q r1 with h1 | h1 <;> rcases le_total q r2 with h2 | h2 <;>
    simp [min_eq_left, min_eq_right, h1, h2] <;> linarith

theorem walkSell_mono (l : List (ℚ × ℚ)) {r1 r2 : ℚ} (h : r1 ≤ r2) :
    (walkSell l r1).1 ≤ (walkSell l r2).1 ∧ (walkSell l r1).2 ≤ (walkSell l r2).2 := by
  induction l generalizing r1 r2 with
  | nil => simp [walkSell]
  | cons a rest ih =>
    obtain ⟨p, q⟩ := a
    by_cases hr2 : r2 ≤ 0
    · rw [walkSell_nonpos _ (le_trans h hr2), walkSell_nonpos _ hr2]
      exact ⟨le_refl 0, le_refl 0⟩
    · by_cases hr1 : r1 ≤ 0
      · rw [walkSell_nonpos ((p, q) :: rest) hr1]
        exact walkSell_nonneg ((p, q) :: rest) r2
      · by_cases hs : p ≤ 0 ∨ q ≤ 0
        · simpa [walkSell, hr1, hr2, hs] using ih h
        · have hs' := hs
          push_neg at hs'
          have ht : min q r1 ≤ min q r2 := min_le_min (le_refl q) h
          have hrest := ih (sellRem_mono (q := q) h)
          constructor
          · simp only [walkSell, if_neg hr1, if_neg hr2, if_neg hs]
            exact add_le_add ht hrest.1
          · simp only [walkSell, if_neg hr1, if_neg hr2, if_neg hs]
            exact add_le_add (mul_le_mul_of_nonneg_right ht hs'.1.le) hrest.2

/-- If every positive-price, positive-qty level in `l` has price at most `c`,
then the quote received by the sell walk is at most `c` times the base sold. -/
theorem walkSell_got_le (l : List (ℚ × ℚ)) (c r : ℚ)
    (hc : ∀ p q, (p, q) ∈ l → 0 < p → 0 < q → p ≤ c) :
    (walkSell l r).2 ≤ c * (walkSell l r).1 := by
  induction l generalizing r with
  | nil => simp [walkSell]
  | cons a rest ih =>
    obtain ⟨p, q⟩ := a
    have hcrest : ∀ p' q', (p', q') ∈ rest → 0 < p' → 0 < q' → p' ≤ c := by
      intro p' q' hm
      exact hc p' q' (List.mem_cons_of_mem _ hm)
    by_cases hr : r ≤ 0
    · simp [walkSell_nonpos _ hr]
    · by_cases hs : p ≤ 0 ∨ q ≤ 0
      · simpa [walkSell, hr, hs] using ih r hcrest
      · have hs' := hs
        push_neg at hs'
        have hcp : p ≤ c := hc p q (List.mem_cons_self _ _) hs'.1 hs'.2
        have htake : 0 ≤ min q r := le_min hs'.2.le (lt_of_not_ge hr).le
        have hrest := ih (r - min q r) hcrest
        simp only [walkSell, if_neg hr, if_neg hs]
        have h1 : min q r * p ≤ c * min q r := by
          calc min q r * p ≤ min q r * c := mul_le_mul_of_nonneg_left hcp htake
            _ = c * min q r := by ring
        calc min q r * p + (walkSell rest (r - min q r)).2
            ≤ c * min q r + c * (walkSell rest (r - min q r)).1 := add_le_add h1 hrest
          _ = c * (min q r + (walkSell rest (r - min q r)).1) := by ring

/-- If every positive-price, positive-qty level in `l` has price at most `c`,
then the extra quote received when the base grows from `r1` to `r2` is at
most `c` times the extra base sold. -/
theorem walkSell_incr_le (l : List (ℚ × ℚ)) (c : ℚ) {r1 r2 : ℚ}
    (hc : ∀ p q, (p, q) ∈ l → 0 < p → 0 < q → p ≤ c) (h : r1 ≤ r2) :
    (walkSell l r2).2 - (walkSell l r1).2 ≤ c * ((walkSell l r2).1 - (walkSell l r1).1) := by
  induction l generalizing r1 r2 with
  | nil => simp [walkSell]
  | cons a rest ih =>
    obtain ⟨p, q⟩ := a
    have hcrest : ∀ p' q', (p', q') ∈ rest → 0 < p' → 0 < q' → p' ≤ c := by
      intro p' q' hm
      exact hc p' q' (List.mem_cons_of_mem _ hm)
    by_cases hr2 : r2 ≤ 0
    · rw [walkSell_nonpos _ (le_trans h hr2), walkSell_nonpos _ hr2]
      simp
    · by_cases hr1 : r1 ≤ 0
      · rw [walkSell_nonpos ((p, q) :: rest) hr1]
        simpa using walkSell_got_le ((p, q) :: rest) c r2 hc
      · by_cases hs : p ≤ 0 ∨ q ≤ 0
        · simpa [walkSell, hr1, hr2, hs] using ih hcrest h
        · have hs' := hs
          push_neg at hs'
          have hcp : p ≤ c := hc p q (List.mem_cons_self _ _) hs'.1 hs'.2
          have ht : min q r1 ≤ min q r2 := min_le_min (le_refl q) h
          have hrest := ih hcrest (sellRem_mono (q := q) h)
          simp only [walkSell, if_neg hr1, if_neg hr2, if_neg hs]
          have hterm : min q r2 * p - min q r1 * p ≤ c * (min q r2 - min q r1) := by
            have : (min q r2 - min q r1) * p ≤ (min q r2 - min q r1) * c :=
              mul_le_mul_of_nonneg_left hcp (by linarith)
            nlinarith [this]
          nlinarith [hterm, hrest]

/-- Cross-multiplied average-price antitonicity for the sell walk: with bid
levels sorted by non-increasing price, a larger base amount never yields a
larger average price. -/
theorem walkSell_avg_cross (l : List (ℚ × ℚ))
    (hsort : List.Pairwise (fun a b : ℚ × ℚ => b.1 ≤ a.1) l) {r1 r2 : ℚ} (h : r1 ≤ r2) :
    (walkSell l r2).2 * (walkSell l r1).1 ≤ (walkSell l r1).2 * (walkSell l r2).1 := by
  induction l generalizing r1 r2 with
  | nil => simp [walkSell]
  | cons a rest ih =>
    obtain ⟨p, q⟩ := a
    rw [List.pairwise_cons] at hsort
    obtain ⟨hhead, hrest_sort⟩ := hsort
    by_cases hr2 : r2 ≤ 0
    · rw [walkSell_nonpos _ (le_trans h hr2), walkSell_nonpos _ hr2]
    · by_cases hr1 : r1 ≤ 0
      · rw [walkSell_nonpos ((p, q) :: rest) hr1]
        simp
      · by_cases hs : p ≤ 0 ∨ q ≤ 0
        · simpa [walkSell, hr1, hr2, hs] using ih hrest_sort h
        · have hs' := hs
          push_neg at hs'
          have hr1' : 0 < r1 := lt_of_not_ge hr1
          have hprest : ∀ p' q', (p', q') ∈ rest → 0 < p' → 0 < q' → p' ≤ p := by
            intro p' q' hm _ _
            exact hhead (p', q') hm
          have ht : min q r1 ≤ min q r2 := min_le_min (le_refl q) h
          have ht1 : 0 ≤ min q r1 := le_min hs'.2.le hr1'.le
          have hrem := sellRem_mono (q := q) h
          have hIH := ih hrest_sort hrem
          simp only [walkSell, if_neg hr1, if_neg hr2, if_neg hs]
          rcases eq_or_lt_of_le ht with heq | hlt
          · have hkey := walkSell_incr_le rest p hprest hrem
            set t1 := min q r1 with ht1def
            set t2 := min q r2 with ht2def
            set w1 := walkSell rest (r1 - t1) with hw1def
            set w2 := walkSell rest (r2 - t2) with hw2def
            have ht2 : 0 ≤ t2 := le_trans ht1 ht
            have hlin : p * w1.1 + w2.2 ≤ p * w2.1 + w1.2 := by linarith [hkey]
            have hmul := mul_le_mul_of_nonneg_left hlin ht2
            rw [← heq]
            nlinarith [hmul, hIH]
          · -- head level only partially sold at r1, so the tail walk at r1 is empty
            have ht1q : min q r1 < q := lt_of_lt_of_le hlt (min_le_left _ _)
            have ht1eq : min q r1 = r1 := by
              rcases min_cases q r1 with ⟨he, _⟩ | ⟨he, _⟩
              · exact absurd he (by intro hc; exact absurd hc (ne_of_lt ht1q))
              · exact he
            have hw1z : walkSell rest (r1 - min q r1) = (0, 0) := by
              rw [ht1eq, sub_self]
              exact walkSell_nonpos rest (le_refl 0)
            have hgot2 := walkSell_got_le rest p (r2 - min q r2) hprest
            rw [hw1z]
            have hred1 : ((0, 0) : ℚ × ℚ).1 = 0 := rfl
            have hred2 : ((0, 0) : ℚ × ℚ).2 = 0 := rfl
            rw [hred1, hred2]
            nlinarith [hgot2, ht1, mul_le_mul_of_nonneg_left hgot2 ht1]

theorem simulate_buy_eq_some {asks : List (ℚ × ℚ)} {n : ℚ} {r : SimResult}
    (h : simulate_buy_with_notional asks n = some r) :
    ∃ bp bq rest, asks = (bp, bq) :: rest ∧ 0 < n ∧ (walkBuy asks n).1 ≠ 0 ∧
      r = ⟨(walkBuy asks n).1, (walkBuy asks n).2,
           (walkBuy asks n).2 / (walkBuy asks n).1,
           ((walkBuy asks n).2 / (walkBuy asks n).1 / bp - 1) * 10000⟩ := by
  cases asks with
  | nil => simp [simulate_buy_with_notional] at h
  | cons a rest =>
    obtain ⟨bp, bq⟩ := a
    by_cases hn : n ≤ 0
    · simp [simulate_buy_with_notional, hn] at h
    · by_cases hz : (walkBuy ((bp, bq) :: rest) n).1 = 0
      · simp [simulate_buy_with_notional, hn, hz] at h
      · refine ⟨bp, bq, rest, rfl, lt_of_not_ge hn, hz, ?_⟩
        simp only [simulate_buy_with_notional, if_neg hn, if_neg hz, Option.some.injEq] at h
        exact h.symm

theorem simulate_sell_eq_some {bids : List (ℚ × ℚ)} {n : ℚ} {r : SimResult}
    (h : simulate_sell_base bids n = some r) :
    ∃ bp bq rest, bids = (bp, bq) :: rest ∧ 0 < n ∧ (walkSell bids n).1 ≠ 0 ∧
      r = ⟨(walkSell bids n).1, (walkSell bids n).2,
           (walkSell bids n).2 / (walkSell bids n).1,
           (1 - (walkSell bids n).2 / (walkSell bids n).1 / bp) * 10000⟩ := by
  cases bids with
  | nil => simp [simulate_sell_base] at h
  | cons a rest =>
    obtain ⟨bp, bq⟩ := a
    by_cases hn : n ≤ 0
    · simp [simulate_sell_base, hn] at h
    · by_cases hz : (walkSell ((bp, bq) :: rest) n).1 = 0
      · simp [simulate_sell_base, hn, hz] at h
      · refine ⟨bp, bq, rest, rfl, lt_of_not_ge hn, hz, ?_⟩
        simp only [simulate_sell_base, if_neg hn, if_neg hz, Option.some.injEq] at h
        exact h.symm

theorem walkBuy_head_pos {p q n : ℚ} (rest : List (ℚ × ℚ))
    (hp : 0 < p) (hq : 0 < q) (hn : 0 < n) : 0 < (walkBuy ((p, q) :: rest) n).1 := by
  have hns : ¬n ≤ 0 := not_le.mpr hn
  have hs : ¬(p ≤ 0 ∨ q ≤ 0) := by push_neg; exact ⟨hp, hq⟩
  have htake : 0 < min q (n / p) := lt_min hq (div_pos hn hp)
  have hrest := walkBuy_nonneg rest (n - min q (n / p) * p)
  simp only [walkBuy, if_neg hns, if_neg hs]
  exact add_pos_of_pos_of_nonneg htake hrest.1

/-- **C7**: for every ask list of genuine levels (positive price and qty) and
positive notional, `simulate_buy_with_notional` walks the asks in order,
taking `min(level_qty, remaining_notional/price)` at each level and stopping
when the notional is exhausted or the asks are drained; it returns
`base_out` = sum of takes, `quote_out` = sum of take × price,
`avg_price = quote_out/base_out` and
`slippage_bps = (avg_price/best_ask − 1) × 10000`; it returns `none`
exactly on the empty ask list (no fill is always possible otherwise). -/
theorem vwap_buy_walk_spec (asks : List (ℚ × ℚ)) (notional : ℚ)
    (hpos : ∀ e ∈ asks, 0 < e.1 ∧ 0 < e.2) (hn : 0 < notional) :
    (asks = [] → simulate_buy_with_notional asks notional = none) ∧
    ∀ bp bq rest, asks = (bp, bq) :: rest →
      ∃ r, simulate_buy_with_notional asks notional = some r ∧
        r.base_out = ((buyFills asks notional).map Prod.snd).sum ∧
        r.quote_out = ((buyFills asks notional).map (fun e => e.2 * e.1)).sum ∧
        0 < r.base_out ∧
        r.avg_price = r.quote_out / r.base_out ∧
        r.slippage_bps = (r.avg_price / bp - 1) * 10000 := by
  constructor
  · intro he
    subst he
    rfl
  · intro bp bq rest he
    subst he
    have hhd := hpos (bp, bq) (List.mem_cons_self _ _)
    have hb := walkBuy_head_pos rest hhd.1 hhd.2 hn
    have hbne : (walkBuy ((bp, bq) :: rest) notional).1 ≠ 0 := ne_of_gt hb
    have hns : ¬notional ≤ 0 := not_le.mpr hn
    refine ⟨⟨(walkBuy ((bp, bq) :: rest) notional).1, (walkBuy ((bp, bq) :: rest) notional).2,
      (walkBuy ((bp, bq) :: rest) notional).2 / (walkBuy ((bp, bq) :: rest) notional).1,
      ((walkBuy ((bp, bq) :: rest) notional).2 / (walkBuy ((bp, bq) :: rest) notional).1 / bp - 1)
        * 10000⟩, ?_, ?_, ?_, ?_, ?_, ?_⟩
    · simp only [simulate_buy_with_notional, if_neg hns, if_neg hbne]
    · exact (walkBuy_eq_fills _ notional).1
    · exact (walkBuy_eq_fills _ notional).2
    · exact hb
    · rfl
    · rfl

theorem vwap_buy_walk_spec_witness :
    (∀ e ∈ [((1:ℚ), (2:ℚ)), (2, 1)], 0 < e.1 ∧ 0 < e.2) ∧ (0:ℚ) < 3 ∧
    (∃ r, simulate_buy_with_notional [((1:ℚ), 2), (2, 1)] 3 = some r ∧
        r.base_out = ((buyFills [((1:ℚ), 2), (2, 1)] 3).map Prod.snd).sum ∧
        r.quote_out = ((buyFills [((1:ℚ), 2), (2, 1)] 3).map (fun e => e.2 * e.1)).sum ∧
        0 < r.base_out ∧
        r.avg_price = r.quote_out / r.base_out ∧
        r.slippage_bps = (r.avg_price / 1 - 1) * 10000) :=
  ⟨by decide, by norm_num,
    (vwap_buy_walk_spec [((1:ℚ), 2), (2, 1)] 3 (by decide) (by norm_num)).2 1 2 [(2, 1)] rfl⟩

/-- **C8, counterexample**: with an unsorted ask list the average price can
strictly decrease as the notional grows, refuting the claim for arbitrary
fixed ask lists. -/
theorem vwap_avg_price_not_monotone_unsorted :
    simulate_buy_with_notional [((10:ℚ), 1), (1, 100)] 10 = some ⟨1, 10, 10, 0⟩ ∧
    simulate_buy_with_notional [((10:ℚ), 1), (1, 100)] 20 =
      some ⟨11, 20, 20/11, (20/11/10 - 1) * 10000⟩ ∧
    (10:ℚ) ≤ 20 ∧
    ¬((⟨1, 10, 10, 0⟩ : SimResult).avg_price ≤
        (⟨11, 20, 20/11, (20/11/10 - 1) * 10000⟩ : SimResult).avg_price) := by
  refine ⟨by norm_num [simulate_buy_with_notional, walkBuy, min_def],
    by norm_num [simulate_buy_with_notional, walkBuy, min_def], by norm_num, by norm_num⟩

/-- **C8 (amended)**: for a fixed ask list sorted by non-decreasing price and
notionals `n1 ≤ n2` both producing a fill, `avg_price` and `base_out` are
non-decreasing; for a fixed bid list sorted by non-increasing price and base
amounts `a1 ≤ a2` both producing a fill, `base_out` is non-decreasing and
`avg_price` is non-increasing. -/
theorem vwap_monotonic_sorted :
    (∀ (asks : List (ℚ × ℚ)) (n1 n2 : ℚ) (r1 r2 : SimResult),
        List.Pairwise (fun a b : ℚ × ℚ => a.1 ≤ b.1) asks → n1 ≤ n2 →
        simulate_buy_with_notional asks n1 = some r1 →
        simulate_buy_with_notional asks n2 = some r2 →
        r1.avg_price ≤ r2.avg_price ∧ r1.base_out ≤ r2.base_out) ∧
    (∀ (bids : List (ℚ × ℚ)) (a1 a2 : ℚ) (s1 s2 : SimResult),
        List.Pairwise (fun a b : ℚ × ℚ => b.1 ≤ a.1) bids → a1 ≤ a2 →
        simulate_sell_base bids a1 = some s1 →
        simulate_sell_base bids a2 = some s2 →
        s1.base_out ≤ s2.base_out ∧ s2.avg_price ≤ s1.avg_price) := by
  constructor
  · intro asks n1 n2 r1 r2 hsort h h1 h2
    obtain ⟨bp, bq, rest, he, hn1, hz1, hr1⟩ := simulate_buy_eq_some h1
    obtain ⟨bp', bq', rest', he', hn2, hz2, hr2⟩ := simulate_buy_eq_some h2
    have hb1 : 0 < (walkBuy asks n1).1 :=
      lt_of_le_of_ne (walkBuy_nonneg asks n1).1 (Ne.symm hz1)
    have hb2 : 0 < (walkBuy asks n2).1 :=
      lt_of_le_of_ne (walkBuy_nonneg asks n2).1 (Ne.symm hz2)
    have hcross := walkBuy_avg_cross asks hsort h
    have hbase := (walkBuy_mono asks h).1
    subst hr1
    subst hr2
    constructor
    · show (walkBuy asks n1).2 / (walkBuy asks n1).1 ≤
        (walkBuy asks n2).2 / (walkBuy asks n2).1
      rw [div_le_div_iff₀ hb1 hb2]
      exact hcross
    · exact hbase
  · intro bids a1 a2 s1 s2 hsort h h1 h2
    obtain ⟨bp, bq, rest, he, ha1, hz1, hs1⟩ := simulate_sell_eq_some h1
    obtain ⟨bp', bq', rest', he', ha2, hz2, hs2⟩ := simulate_sell_eq_some h2
    have hb1 : 0 < (walkSell bids a1).1 :=
      lt_of_le_of_ne (walkSell_nonneg bids a1).1 (Ne.symm hz1)
    have hb2 : 0 < (walkSell bids a2).1 :=
      lt_of_le_of_ne (walkSell_nonneg bids a2).1 (Ne.symm hz2)
    have hcross := walkSell_avg_cross bids hsort h
    have hbase := (walkSell_mono bids h).1
    subst hs1
    subst hs2
    constructor
    · exact hbase
    · show (walkSell bids a2).2 / (walkSell bids a2).1 ≤
        (walkSell bids a1).2 / (walkSell bids a1).1
      rw [div_le_div_iff₀ hb2 hb1]
      exact hcross

theorem vwap_monotonic_sorted_witness :
    List.Pairwise (fun a b : ℚ × ℚ => a.1 ≤ b.1) [((1:ℚ), (1:ℚ)), (2, 1)] ∧ (1:ℚ) ≤ 2 ∧
    simulate_buy_with_notional [((1:ℚ), 1), (2, 1)] 1 = some ⟨1, 1, 1, 0⟩ ∧
    simulate_buy_with_notional [((1:ℚ), 1), (2, 1)] 2 = some ⟨3/2, 2, 4/3, 10000/3⟩ ∧
    ((⟨1, 1, 1, 0⟩ : SimResult).avg_price ≤ (⟨3/2, 2, 4/3, 10000/3⟩ : SimResult).avg_price ∧
      (⟨1, 1, 1, 0⟩ : SimResult).base_out ≤ (⟨3/2, 2, 4/3, 10000/3⟩ : SimResult).base_out) ∧
    List.Pairwise (fun a b : ℚ × ℚ => b.1 ≤ a.1) [((2:ℚ), (1:ℚ)), (1, 1)] ∧
    simulate_sell_base [((2:ℚ), 1), (1, 1)] 1 = some ⟨1, 2, 2, 0⟩ ∧
    simulate_sell_base [((2:ℚ), 1), (1, 1)] 2 = some ⟨2, 3, 3/2, 2500⟩ ∧
    ((⟨1, 2, 2, 0⟩ : SimResult).base_out ≤ (⟨2, 3, 3/2, 2500⟩ : SimResult).base_out ∧
      (⟨2, 3, 3/2, 2500⟩ : SimResult).avg_price ≤ (⟨1, 2, 2, 0⟩ : SimResult).avg_price) :=
  ⟨by norm_num, by norm_num,
    by norm_num [simulate_buy_with_notional, walkBuy, min_def],
    by norm_num [simulate_buy_with_notional, walkBuy, min_def],
    vwap_monotonic_sorted.1 [((1:ℚ), 1), (2, 1)] 1 2 _ _ (by norm_num) (by norm_num)
      (by norm_num [simulate_buy_with_notional, walkBuy, min_def])
      (by norm_num [simulate_buy_with_notional, walkBuy, min_def]),
    by norm_num, by norm_num [simulate_sell_base, walkSell, min_def],
    by norm_num [simulate_sell_base, walkSell, min_def],
    vwap_monotonic_sorted.2 [((2:ℚ), 1), (1, 1)] 1 2 _ _ (by norm_num) (by norm_num)
      (by norm_num [simulate_sell_base, walkSell, min_def])
      (by norm_num [simulate_sell_base, walkSell, min_def])⟩

/-! ## Order book (src/core/orderbook.py) -/

/-- A raw order-book row after `_safe_decimal` parsing of each cell:
`none` marks a cell whose string failed to parse. -/
abbrev RawRow := List (Option ℚ)

/-- Extract `(price, qty)` from a row exactly as the Python loops do: rows
shorter than two cells and rows whose price or qty failed to parse are
dropped (with a warning in the source). -/
def parseRow : RawRow → Option (ℚ × ℚ)
  | p? :: q? :: _ =>
    match p?, q? with
    | some p, some q => some (p, q)
    | _, _ => none
  | _ => none

/-- Association-list counterpart of `book[price] = qty`. -/
def upsert (book : List (ℚ × ℚ)) (price qty : ℚ) : List (ℚ × ℚ) :=
  if book.any (fun e => e.1 = price) then
    book.map (fun e => if e.1 = price then (price, qty) else e)
  else book ++ [(price, qty)]

/-- Association-list counterpart of `book.pop(price, None)`. -/
def eraseKey (book : List (ℚ × ℚ)) (price : ℚ) : List (ℚ × ℚ) :=
  book.filter (fun e => e.1 ≠ price)

/-- `_parse_side` inside `OrderBook.apply_snapshot`: keep exactly the rows
that parse and have `qty > 0`. -/
def snapshotSide (rows : List RawRow) : List (ℚ × ℚ) :=
  rows.foldl (fun acc row =>
    match parseRow row with
    | some (p, q) => if 0 < q then upsert acc p q else acc
    | none => acc) []

/-- One side of `OrderBook.apply_delta`: `qty = 0` removes the level,
any other qty upserts it; unparsable rows are skipped. -/
def deltaSide (book : List (ℚ × ℚ)) (rows : List RawRow) : List (ℚ × ℚ) :=
  rows.foldl (fun b row =>
    match parseRow row with
    | some (p, q) => if q = 0 then eraseKey b p else upsert b p q
    | none => b) book

/-- In-memory order book (`OrderBook` in `src/core/orderbook.py`); the two
sides are the price→qty dicts kept as association lists. -/
structure OrderBook where
  symbol : String
  bids : List (ℚ × ℚ) := []
  asks : List (ℚ × ℚ) := []
  last_update_ms : ℤ := 0
  last_cts_ms : ℤ := 0
  last_snapshot_ms : ℤ := 0
  deriving DecidableEq, Repr

/-- `OrderBook.apply_snapshot`; `last_snapshot_ms = cts_ms or ts_ms` keeps
`cts_ms` when it is non-zero (Python truthiness). -/
def OrderBook.apply_snapshot (ob : OrderBook) (bids asks : List RawRow)
    (ts_ms cts_ms : ℤ) : OrderBook :=
  { ob with
    bids := snapshotSide bids
    asks := snapshotSide asks
    last_update_ms := ts_ms
    last_cts_ms := cts_ms
    last_snapshot_ms := if cts_ms ≠ 0 then cts_ms else ts_ms }

/-- `OrderBook.apply_delta`. -/
def OrderBook.apply_delta (ob : OrderBook) (bids asks : List RawRow)
    (ts_ms cts_ms : ℤ) : OrderBook :=
  { ob with
    bids := deltaSide ob.bids bids
    asks := deltaSide ob.asks asks
    last_update_ms := ts_ms
    last_cts_ms := cts_ms }

/-- `OrderBook.age_ms`, with the current wall-clock passed explicitly:
`last = int(last_cts_ms or last_update_ms or 0)` (first non-zero wins),
the sentinel 10,000,000 when `last ≤ 0`, else `max(0, now − last)`. -/
def OrderBook.age_ms (ob : OrderBook) (now : ℤ) : ℤ :=
  let last := if ob.last_cts_ms ≠ 0 then ob.last_cts_ms
    else if ob.last_update_ms ≠ 0 then ob.last_update_ms else 0
  if last ≤ 0 then 10000000 else max 0 (now - last)

/-- A stream event applied to the book. -/
inductive BookOp
  | snapshot (bids asks : List RawRow) (ts_ms cts_ms : ℤ)
  | delta (bids asks : List RawRow) (ts_ms cts_ms : ℤ)

def OrderBook.applyOp (ob : OrderBook) : BookOp → OrderBook
  | .snapshot b a t c => ob.apply_snapshot b a t c
  | .delta b a t c => ob.apply_delta b a t c

def OrderBook.runOps (ob : OrderBook) (ops : List BookOp) : OrderBook :=
  ops.foldl OrderBook.applyOp ob

/-- All stored levels on a side have positive quantity. -/
def posLevels (side : List (ℚ × ℚ)) : Prop := ∀ e ∈ side, 0 < e.2

/-- Every successfully parsed row of a delta op carries a non-negative qty
(snapshot ops are unrestricted). -/
def DeltaNonneg : BookOp → Prop
  | .snapshot _ _ _ _ => True
  | .delta b a _ _ => ∀ row ∈ b ++ a, ∀ p q, parseRow row = some (p, q) → 0 ≤ q

theorem upsert_pos {book : List (ℚ × ℚ)} {p q : ℚ}
    (hb : posLevels book) (hq : 0 < q) : posLevels (upsert book p q) := by
  intro e he
  unfold upsert at he
  split at he
  · rw [List.mem_map] at he
    obtain ⟨e', he', hmap⟩ := he
    by_cases hk : e'.1 = p
    · simp only [hk, if_pos rfl] at hmap
      rw [← hmap]
      exact hq
    · simp only [if_neg hk] at hmap
      rw [← hmap]
      exact hb e' he'
  · rw [List.mem_append] at he
    rcases he with he | he
    · exact hb e he
    · rw [List.mem_singleton] at he
      rw [he]
      exact hq

theorem eraseKey_pos {book : List (ℚ × ℚ)} {p : ℚ}
    (hb : posLevels book) : posLevels (eraseKey book p) := by
  intro e he
  exact hb e (List.mem_of_mem_filter he)

theorem snapshotSide_pos (rows : List RawRow) : posLevels (snapshotSide rows) := by
  suffices h : ∀ acc, posLevels acc → posLevels (rows.foldl (fun acc row =>
      match parseRow row with
      | some (p, q) => if 0 < q then upsert acc p q else acc
      | none => acc) acc) by
    exact h [] (by intro e he; cases he)
  induction rows with
  | nil => intro acc hacc; exact hacc
  | cons row rest ih =>
    intro acc hacc
    simp only [List.foldl_cons]
    apply ih
    cases hp : parseRow row with
    | none => simpa [hp] using hacc
    | some pq =>
      obtain ⟨p, q⟩ := pq
      by_cases hq : 0 < q
      · simpa [hp, hq] using upsert_pos hacc hq
      · simpa [hp, hq] using hacc

theorem deltaSide_pos {book : List (ℚ × ℚ)} (rows : List RawRow)
    (hb : posLevels book)
    (hrows : ∀ row ∈ rows, ∀ p q, parseRow row = some (p, q) → 0 ≤ q) :
    posLevels (deltaSide book rows) := by
  induction rows generalizing book with
  | nil => exact hb
  | cons row rest ih =>
    have hrest : ∀ row' ∈ rest, ∀ p q, parseRow row' = some (p, q) → 0 ≤ q := by
      intro row' hm
      exact hrows row' (List.mem_cons_of_mem _ hm)
    simp only [deltaSide, List.foldl_cons]
    cases hp : parseRow row with
    | none => simpa [deltaSide, hp] using ih hb hrest
    | some pq =>
      obtain ⟨p, q⟩ := pq
      by_cases hz : q = 0
      · simpa [deltaSide, hp, hz] using ih (eraseKey_pos hb) hrest
      · have hq : 0 < q :=
          lt_of_le_of_ne (hrows row (List.mem_cons_self _ _) p q hp) (Ne.symm hz)
        simpa [deltaSide, hp, hz] using ih (upsert_pos hb hq) hrest

theorem applyOp_pos {ob : OrderBook} {op : BookOp}
    (hob : posLevels ob.bids ∧ posLevels ob.asks) (hop : DeltaNonneg op) :
    posLevels (ob.applyOp op).bids ∧ posLevels (ob.applyOp op).asks := by
  cases op with
  | snapshot b a t c =>
    exact ⟨snapshotSide_pos b, snapshotSide_pos a⟩
  | delta b a t c =>
    refine ⟨deltaSide_pos b hob.1 ?_, deltaSide_pos a hob.2 ?_⟩
    · intro row hm
      exact hop row (List.mem_append_left _ hm)
    · intro row hm
      exact hop row (List.mem_append_right _ hm)

/-- **C2, counterexample**: a delta row with a *negative* quantity is upserted
as-is (`apply_delta` only deletes on `qty == 0`), so a stored level can have
`qty ≤ 0`, refuting "every stored level has qty > 0" for arbitrary delta
rows. -/
theorem orderbook_negative_qty_stored :
    (OrderBook.runOps { symbol := "X" } [.delta [[some 1, some (-1)]] [] 0 0]).bids
      = [(1, -1)] ∧
    ¬(0 < (-1 : ℚ)) := by
  constructor
  · norm_num [OrderBook.runOps, OrderBook.applyOp, OrderBook.apply_delta,
      deltaSide, parseRow, upsert, eraseKey]
  · norm_num

/-- **C2 (amended)**: for every order book whose sides satisfy the positivity
invariant (in particular a fresh book) and every finite sequence of
snapshot/delta applications in which every parsed delta row carries a
non-negative quantity, all stored levels keep `qty > 0` — and a delta row
with `qty = 0` at a price absent from the book leaves the book's sides
unchanged (deleting an absent level is a no-op). -/
theorem orderbook_levels_positive (ob : OrderBook) (ops : List BookOp)
    (hob : posLevels ob.bids ∧ posLevels ob.asks)
    (hops : ∀ op ∈ ops, DeltaNonneg op) :
    (posLevels (ob.runOps ops).bids ∧ posLevels (ob.runOps ops).asks) ∧
    (∀ (ob2 : OrderBook) (p : ℚ) (ts cts : ℤ), (∀ e ∈ ob2.bids, e.1 ≠ p) →
      (ob2.apply_delta [[some p, some 0]] [] ts cts).bids = ob2.bids ∧
        (ob2.apply_delta [[some p, some 0]] [] ts cts).asks = ob2.asks) := by
  constructor
  · induction ops generalizing ob with
    | nil => exact hob
    | cons op rest ih =>
      have hop := hops op (List.mem_cons_self _ _)
      have hrest : ∀ op' ∈ rest, DeltaNonneg op' := by
        intro op' hm
        exact hops op' (List.mem_cons_of_mem _ hm)
      exact ih (ob.applyOp op) (applyOp_pos hob hop) hrest
  · intro ob2 p ts cts habsent
    constructor
    · show deltaSide ob2.bids [[some p, some 0]] = ob2.bids
      have hstep : deltaSide ob2.bids [[some p, some 0]] = eraseKey ob2.bids p := by
        simp [deltaSide, parseRow]
      rw [hstep]
      unfold eraseKey
      rw [List.filter_eq_self]
      intro e he
      simpa using habsent e he
    · rfl

theorem orderbook_levels_positive_witness :
    (posLevels ([] : List (ℚ × ℚ)) ∧ posLevels ([] : List (ℚ × ℚ))) ∧
    (∀ op ∈ [BookOp.snapshot [[some 2, some 5]] [[some 3, some 4]] 1 1,
             BookOp.delta [[some 2, some 0]] [[some 3, some 7]] 2 2], DeltaNonneg op) ∧
    (posLevels (OrderBook.runOps { symbol := "B" }
        [BookOp.snapshot [[some 2, some 5]] [[some 3, some 4]] 1 1,
         BookOp.delta [[some 2, some 0]] [[some 3, some 7]] 2 2]).bids ∧
      posLevels (OrderBook.runOps { symbol := "B" }
        [BookOp.snapshot [[some 2, some 5]] [[some 3, some 4]] 1 1,
         BookOp.delta [[some 2, some 0]] [[some 3, some 7]] 2 2]).asks) ∧
    (∀ e ∈ ({ symbol := "B", bids := [(2, 5)] } : OrderBook).bids, e.1 ≠ 9) ∧
    (({ symbol := "B", bids := [(2, 5)] } : OrderBook).apply_delta
        [[some 9, some 0]] [] 3 3).bids = ({ symbol := "B", bids := [(2, 5)] } : OrderBook).bids ∧
      (({ symbol := "B", bids := [(2, 5)] } : OrderBook).apply_delta
        [[some 9, some 0]] [] 3 3).asks = ({ symbol := "B", bids := [(2, 5)] } : OrderBook).asks := by
  have hops : ∀ op ∈ [BookOp.snapshot [[some 2, some 5]] [[some 3, some 4]] 1 1,
      BookOp.delta [[some 2, some 0]] [[some 3, some 7]] 2 2], DeltaNonneg op := by
    intro op hm
    rcases List.mem_cons.mp hm with h | h
    · rw [h]; trivial
    · rcases List.mem_cons.mp h with h' | h'
      · rw [h']
        intro row hr p q hpq
        simp only [List.cons_append, List.nil_append] at hr
        rcases List.mem_cons.mp hr with h2 | h2
        · rw [h2] at hpq
          simp [parseRow] at hpq
          obtain ⟨h4, h5⟩ := hpq
          subst h5
          norm_num
        · rcases List.mem_cons.mp h2 with h3 | h3
          · rw [h3] at hpq
            simp [parseRow] at hpq
            obtain ⟨h4, h5⟩ := hpq
            subst h5
            norm_num
          · cases h3
      · cases h'
  have hmain := orderbook_levels_positive { symbol := "B" }
    [BookOp.snapshot [[some 2, some 5]] [[some 3, some 4]] 1 1,
     BookOp.delta [[some 2, some 0]] [[some 3, some 7]] 2 2]
    (by constructor <;> intro e he <;> cases he) hops
  refine ⟨⟨(by intro e he; cases he), (by intro e he; cases he)⟩, hops, hmain.1, ?_, ?_⟩
  · intro e he
    rcases List.mem_cons.mp he with h | h
    · rw [h]; norm_num
    · cases h
  · exact hmain.2 { symbol := "B", bids := [(2, 5)] } 9 3 3
      (by intro e he
          rcases List.mem_cons.mp he with h | h
          · rw [h]; norm_num
          · cases h)

/-- **C3, counterexample**: when both timestamps are non-zero `age_ms` uses
`last_cts_ms` (Python `or` keeps the first truthy value), not
`max(last_cts_ms, last_update_ms)`. -/
theorem age_ms_not_max :
    ({ symbol := "X", last_cts_ms := 5, last_update_ms := 10 } : OrderBook).age_ms 10 = 5 ∧
    (5 : ℤ) ≠ max 0 (10 - max 5 10) := by
  constructor
  · norm_num [OrderBook.age_ms]
  · norm_num

/-- **C3 (amended)**: `age_ms()` is `max(0, now − last)` where `last` is
`last_cts_ms` when non-zero and `last_update_ms` otherwise (`last_cts_ms or
last_update_ms`); a book never updated (both timestamps 0) returns the
sentinel 10,000,000. -/
theorem age_ms_spec (ob : OrderBook) (now : ℤ) :
    (0 < ob.last_cts_ms → ob.age_ms now = max 0 (now - ob.last_cts_ms)) ∧
    (ob.last_cts_ms = 0 → 0 < ob.last_update_ms →
      ob.age_ms now = max 0 (now - ob.last_update_ms)) ∧
    (ob.last_cts_ms = 0 → ob.last_update_ms = 0 → ob.age_ms now = 10000000) := by
  refine ⟨?_, ?_, ?_⟩
  · intro h
    have h1 : ob.last_cts_ms ≠ 0 := ne_of_gt h
    simp only [OrderBook.age_ms, if_pos h1, if_neg (not_le.mpr h)]
  · intro h0 h
    have h1 : ob.last_update_ms ≠ 0 := ne_of_gt h
    simp only [OrderBook.age_ms, h0, if_neg (by norm_num : ¬(0 : ℤ) ≠ 0), if_pos h1,
      if_neg (not_le.mpr h)]
  · intro h0 h1
    simp [OrderBook.age_ms, h0, h1]

theorem age_ms_spec_witness :
    ((0:ℤ) < 5 ∧
      ({ symbol := "A", last_cts_ms := 5 } : OrderBook).age_ms 12 = max 0 (12 - 5)) ∧
    (((0:ℤ) < 7) ∧
      ({ symbol := "A", last_update_ms := 7 } : OrderBook).age_ms 12 = max 0 (12 - 7)) ∧
    ({ symbol := "A" } : OrderBook).age_ms 12 = 10000000 :=
  ⟨⟨by norm_num, (age_ms_spec { symbol := "A", last_cts_ms := 5 } 12).1 (by norm_num)⟩,
   ⟨by norm_num, (age_ms_spec { symbol := "A", last_update_ms := 7 } 12).2.1 rfl (by norm_num)⟩,
   (age_ms_spec { symbol := "A" } 12).2.2 rfl rfl⟩

/-! ## Signal dedup (src/core/arb/dedup.py) -/

/-- `Dedup`'s configuration: `cooldown_sec` is coerced to `int`,
`min_delta_profit` is a Decimal. -/
structure Dedup where
  cooldown_sec : ℤ
  min_delta_profit : ℚ

/-- `Dedup.can_send(key, profit)`, with the `_last_sent` entry for the key
(if any) and the current time passed explicitly: refuse only when the entry
is both inside the cooldown *and* not enough better in profit. -/
def Dedup.can_send (d : Dedup) (prev : Option (ℚ × ℚ)) (now profit : ℚ) : Bool :=
  match prev with
  | none => true
  | some (last_ts, last_profit) =>
    if now - last_ts < (d.cooldown_sec : ℚ) ∧ profit - last_profit < d.min_delta_profit then
      false
    else true

/-- `Dedup.mark_sent`: the entry stored for the key after an emission. -/
def Dedup.mark_sent (now profit : ℚ) : Option (ℚ × ℚ) := some (now, profit)

theorem Dedup.can_send_some_iff (d : Dedup) (last_ts last_profit now profit : ℚ) :
    d.can_send (some (last_ts, last_profit)) now profit = true ↔
      ((d.cooldown_sec : ℚ) ≤ now - last_ts ∨ d.min_delta_profit ≤ profit - last_profit) := by
  simp only [Dedup.can_send]
  split_ifs with h
  · simp only [Bool.false_eq_true, false_iff, not_or, not_le]
    exact ⟨h.1, h.2⟩
  · simp only [true_iff]
    rcases not_and_or.mp h with h1 | h1
    · exact Or.inl (not_lt.mp h1)
    · exact Or.inr (not_lt.mp h1)

/-- **C5**: with an entry `(last_ts, last_profit)` recorded for the key,
`can_send` at time `now` allows exactly when
`now − last_ts ≥ cooldown_sec` or
`profit − last_profit ≥ min_delta_profit_usd_to_resend`; consequently any
second emission after `mark_sent(ts1, p1)` satisfies
`ts2 − ts1 ≥ cooldown_sec` or `p2 − p1 ≥ min_delta`. -/
theorem dedup_law (d : Dedup) (last_ts last_profit now profit : ℚ) :
    (d.can_send (some (last_ts, last_profit)) now profit = true ↔
      ((d.cooldown_sec : ℚ) ≤ now - last_ts ∨ d.min_delta_profit ≤ profit - last_profit)) ∧
    (∀ ts1 p1 ts2 p2 : ℚ, d.can_send (Dedup.mark_sent ts1 p1) ts2 p2 = true →
      ((d.cooldown_sec : ℚ) ≤ ts2 - ts1 ∨ d.min_delta_profit ≤ p2 - p1)) :=
  ⟨Dedup.can_send_some_iff d last_ts last_profit now profit,
   fun ts1 p1 ts2 p2 h => (Dedup.can_send_some_iff d ts1 p1 ts2 p2).mp h⟩

theorem dedup_law_witness :
    (Dedup.can_send ⟨10, 5⟩ (some (0, 0)) 3 7 = true ↔
      ((10:ℚ) ≤ 3 - 0 ∨ (5:ℚ) ≤ 7 - 0)) ∧
    (Dedup.can_send ⟨10, 5⟩ (Dedup.mark_sent 0 0) 10 0 = true) ∧
    ((10:ℚ) ≤ 10 - 0 ∨ (5:ℚ) ≤ 0 - 0) :=
  ⟨(dedup_law ⟨10, 5⟩ 0 0 3 7).1,
   by norm_num [Dedup.can_send, Dedup.mark_sent],
   (dedup_law ⟨10, 5⟩ 0 0 3 7).2 0 0 10 0
     (by norm_num [Dedup.can_send, Dedup.mark_sent])⟩

/-! ## Signal persistence (src/core/arb/persistence.py) -/

/-- `Persistence.__init__`: the threshold is clamped, `max(1, int(hits))`. -/
def persistenceHits (h : ℤ) : ℤ := max 1 h

/-- The per-key counter `_cnt[key]` after a trace of `hit` calls for the
key (absent = 0): ok increments, not-ok resets to zero. -/
def persistCounter (trace : List Bool) : ℕ :=
  trace.foldl (fun c ok => if ok then c + 1 else 0) 0

/-- Return value of `Persistence.hit(key, ok)` when the earlier calls for
the key were `trace`: not-ok resets the counter and returns false; ok
increments it and compares with the threshold. -/
def persistHit (hits : ℤ) (trace : List Bool) (ok : Bool) : Bool :=
  if !ok then false
  else decide (persistenceHits hits ≤ (persistCounter trace + 1 : ℤ))

/-- Length of the trailing all-ok run of a trace. -/
def trailingOk (trace : List Bool) : ℕ := (trace.reverse.takeWhile id).length

theorem persistCounter_append (tr : List Bool) (b : Bool) :
    persistCounter (tr ++ [b]) = if b then persistCounter tr + 1 else 0 := by
  cases b <;> simp [persistCounter, List.foldl_append]

theorem trailingOk_append (tr : List Bool) (b : Bool) :
    trailingOk (tr ++ [b]) = if b then trailingOk tr + 1 else 0 := by
  cases b <;> simp [trailingOk, List.reverse_append, List.takeWhile]

theorem persistCounter_eq_trailingOk (tr : List Bool) :
    persistCounter tr = trailingOk tr := by
  induction tr using List.reverseRecOn with
  | nil => rfl
  | append_singleton tr b ih =>
    rw [persistCounter_append, trailingOk_append]
    cases b <;> simp [ih]

theorem takeWhile_length_ge_iff {α : Type} (pr : α → Bool) (xs : List α) (k : ℕ) :
    k ≤ (xs.takeWhile pr).length ↔ k ≤ xs.length ∧ (xs.take k).all pr = true := by
  induction xs generalizing k with
  | nil => simp
  | cons x xs ih =>
    cases k with
    | zero => simp
    | succ k' =>
      by_cases hx : pr x
      · simp [List.takeWhile_cons, hx, Nat.succ_le_succ_iff, ih]
      · simp [List.takeWhile_cons, hx]

/-- **C6**: `Persistence.hit(key, ok)` returns true exactly when the call
itself and the `persistence_hits − 1` calls before it — i.e. the last
`persistence_hits` calls for that key — were all ok, with no interleaving
not-ok call (a not-ok call resets the counter to zero, and the trailing
all-ok run is what the counter measures). -/
theorem persistence_law (hits : ℤ) (trace : List Bool) (ok : Bool) :
    persistHit hits trace ok = true ↔
      ((persistenceHits hits).toNat ≤ (trace ++ [ok]).length ∧
        ((trace ++ [ok]).reverse.take (persistenceHits hits).toNat).all id = true) := by
  have hk1 : 1 ≤ (persistenceHits hits).toNat := by
    simp only [persistenceHits]
    omega
  cases ok with
  | false =>
    obtain ⟨k', hk⟩ : ∃ k', (persistenceHits hits).toNat = k' + 1 :=
      ⟨(persistenceHits hits).toNat - 1, by omega⟩
    simp [persistHit, hk, List.reverse_append]
  | true =>
    have hiff1 : persistHit hits trace true = true ↔
        (persistenceHits hits).toNat ≤ persistCounter (trace ++ [true]) := by
      simp [persistHit, Int.toNat_le, persistCounter_append]
    rw [hiff1, persistCounter_eq_trailingOk]
    unfold trailingOk
    rw [takeWhile_length_ge_iff]
    simp

/-! ## Jupiter negative cache and quote fast path (src/connectors/jupiter.py) -/

/-- Lookup in a dict modelled as an association list, with the
`dict.get(key, 0.0)` default of `0`. -/
def lookupQ {α : Type} [DecidableEq α] (m : List (α × ℚ)) (k : α) : ℚ :=
  ((m.find? (fun kv => decide (kv.1 = k))).map Prod.snd).getD 0

/-- Dict assignment `m[k] = v` on the association list: overwrite the
entries stored under `k`, or append a new entry. -/
def setKey {α : Type} [DecidableEq α] (m : List (α × ℚ)) (k : α) (v : ℚ) :
    List (α × ℚ) :=
  if m.any (fun kv => decide (kv.1 = k)) then
    m.map (fun kv => if kv.1 = k then (k, v) else kv)
  else m ++ [(k, v)]

/-- `NegativeCache`: monotonic-clock deadlines for blocked mints and pairs,
the dicts `_token_until` and `_pair_until` kept as association lists. -/
structure NegativeCache where
  token_until : List (String × ℚ)
  pair_until : List ((String × String) × ℚ)

/-- `NegativeCache.is_blocked(input_mint, output_mint)` at monotonic time
`now`: blocked when either mint or the ordered pair has a deadline strictly
in the future. -/
def NegativeCache.is_blocked (c : NegativeCache) (now : ℚ)
    (input_mint output_mint : String) : Bool :=
  decide (now < lookupQ c.token_until input_mint) ||
    decide (now < lookupQ c.token_until output_mint) ||
    decide (now < lookupQ c.pair_until (input_mint, output_mint))

/-- `NegativeCache.block_token`: ignore empty mints; clamp the TTL to ≥ 1
second; store `now + ttl` only when it exceeds the stored deadline. -/
def NegativeCache.block_token (c : NegativeCache) (now : ℚ) (mint : String)
    (ttl_sec : ℚ) : NegativeCache :=
  if mint = "" then c
  else
    let til := now + max 1 ttl_sec
    if lookupQ c.token_until mint < til then
      { c with token_until := setKey c.token_until mint til }
    else c

/-- `NegativeCache.block_pair`: clamp the TTL to ≥ 1 second; store only a
later deadline. -/
def NegativeCache.block_pair (c : NegativeCache) (now : ℚ)
    (input_mint output_mint : String) (ttl_sec : ℚ) : NegativeCache :=
  let til := now + max 1 ttl_sec
  if lookupQ c.pair_until (input_mint, output_mint) < til then
    { c with pair_until := setKey c.pair_until (input_mint, output_mint) til }
  else c

/-- One table of `NegativeCache.cleanup`: remove the expired entries
(deadline ≤ now); when the table still exceeds its size cap, sort it by
deadline ascending (`sorted(items, key=value)`, a stable sort) and drop the
oldest fifth, `max(1, int(0.2 * len))`, written `max 1 (len / 5)`. -/
def cleanupTable {α : Type} [DecidableEq α] (m : List (α × ℚ)) (now : ℚ)
    (maxItems : ℕ) : List (α × ℚ) :=
  let m1 := m.filter (fun kv => decide (now < kv.2))
  if maxItems < m1.length then
    (m1.mergeSort (fun a b => decide (a.2 ≤ b.2))).drop (max 1 (m1.length / 5))
  else m1

/-- `NegativeCache.cleanup(max_token_items, max_pair_items)`; the
`_maybe_cleanup` call site uses the default caps 50,000 and 200,000. -/
def NegativeCache.cleanup (c : NegativeCache) (now : ℚ)
    (maxTokenItems maxPairItems : ℕ) : NegativeCache :=
  ⟨cleanupTable c.token_until now maxTokenItems,
   cleanupTable c.pair_until now maxPairItems⟩

/-- Outcome of the pre-request phase of `quote_exact_in`:
`earlyNone` = returned `None` on the input guards, before `_maybe_cleanup`,
so no HTTP request, no retry, no negative-cache write and no skip callback;
`blockedNone` = returned `None` on the negative-cache fast path, without a
request; `request` = proceeds to issue the HTTP GET. -/
inductive QuoteStart
  | earlyNone
  | blockedNone
  | request
  deriving DecidableEq, Repr

/-- The pre-request control flow of
`quote_exact_in(input_mint, output_mint, amount_raw)`: empty mints or a
non-positive amount return immediately with the cache untouched; otherwise
`_maybe_cleanup` runs `NegativeCache.cleanup` with its default caps on about
2% of calls — the random draw is the `doCleanup` flag — and the
negative-cache fast path is then consulted on the post-cleanup cache. -/
def quote_exact_in_start (doCleanup : Bool) (c : NegativeCache) (now : ℚ)
    (input_mint output_mint : String) (amount_raw : ℤ) :
    QuoteStart × NegativeCache :=
  if input_mint = "" ∨ output_mint = "" then (.earlyNone, c)
  else if amount_raw ≤ 0 then (.earlyNone, c)
  else
    let c' := if doCleanup then c.cleanup now 50000 200000 else c
    if c'.is_blocked now input_mint output_mint then (.blockedNone, c')
    else (.request, c')

theorem lookupQ_nil {α : Type} [DecidableEq α] (k : α) :
    lookupQ ([] : List (α × ℚ)) k = 0 := rfl

theorem lookupQ_cons_self {α : Type} [DecidableEq α] (kv : α × ℚ)
    (m : List (α × ℚ)) (k : α) (h : kv.1 = k) : lookupQ (kv :: m) k = kv.2 := by
  unfold lookupQ
  rw [List.find?_cons_of_pos _ (by simpa using h)]
  rfl

theorem lookupQ_cons_ne {α : Type} [DecidableEq α] (kv : α × ℚ)
    (m : List (α × ℚ)) (k : α) (h : kv.1 ≠ k) :
    lookupQ (kv :: m) k = lookupQ m k := by
  unfold lookupQ
  rw [List.find?_cons_of_neg _ (by simpa using h)]

/-- Removing the expired entries of a table does not change the stored
deadline of a key whose deadline is still in the future. -/
theorem lookupQ_filter_future {α : Type} [DecidableEq α] (m : List (α × ℚ))
    (now : ℚ) (k : α) (h : now < lookupQ m k) :
    lookupQ (m.filter (fun kv => decide (now < kv.2))) k = lookupQ m k := by
  induction m with
  | nil => rfl
  | cons kv rest ih =>
    by_cases hk : kv.1 = k
    · have hlk : lookupQ (kv :: rest) k = kv.2 := lookupQ_cons_self kv rest k hk
      have hkeep : (fun kv : α × ℚ => decide (now < kv.2)) kv = true := by
        rw [hlk] at h
        simpa using h
      rw [@List.filter_cons_of_pos _ (fun kv : α × ℚ => decide (now < kv.2)) kv rest hkeep,
        hlk, lookupQ_cons_self kv _ k hk]
    · have hlk : lookupQ (kv :: rest) k = lookupQ rest k := lookupQ_cons_ne kv rest k hk
      rw [hlk] at h ⊢
      by_cases hkeep : (fun kv : α × ℚ => decide (now < kv.2)) kv = true
      · rw [@List.filter_cons_of_pos _ (fun kv : α × ℚ => decide (now < kv.2)) kv rest hkeep,
          lookupQ_cons_ne kv _ k hk]
        exact ih h
      · rw [@List.filter_cons_of_neg _ (fun kv : α × ℚ => decide (now < kv.2)) kv rest hkeep]
        exact ih h

theorem lookupQ_map_overwrite {α : Type} [DecidableEq α] (m : List (α × ℚ))
    (k : α) (v : ℚ) (h : m.any (fun kv => decide (kv.1 = k)) = true) :
    lookupQ (m.map (fun kv => if kv.1 = k then (k, v) else kv)) k = v := by
  induction m with
  | nil => simp at h
  | cons kv rest ih =>
    by_cases hk : kv.1 = k
    · rw [List.map_cons, if_pos hk, lookupQ_cons_self _ _ _ rfl]
    · have h' : rest.any (fun kv => decide (kv.1 = k)) = true := by
        simpa [List.any_cons, hk] using h
      rw [List.map_cons, if_neg hk, lookupQ_cons_ne _ _ _ hk]
      exact ih h'

theorem lookupQ_map_overwrite_ne {α : Type} [DecidableEq α] (m : List (α × ℚ))
    (k k' : α) (v : ℚ) (h : k' ≠ k) :
    lookupQ (m.map (fun kv => if kv.1 = k then (k, v) else kv)) k' =
      lookupQ m k' := by
  induction m with
  | nil => rfl
  | cons kv rest ih =>
    by_cases hk : kv.1 = k
    · rw [List.map_cons, if_pos hk, lookupQ_cons_ne _ _ _ (Ne.symm h),
        lookupQ_cons_ne _ _ _ (by rw [hk]; exact Ne.symm h)]
      exact ih
    · by_cases hk' : kv.1 = k'
      · rw [List.map_cons, if_neg hk, lookupQ_cons_self _ _ _ hk',
          lookupQ_cons_self _ _ _ hk']
      · rw [List.map_cons, if_neg hk, lookupQ_cons_ne _ _ _ hk',
          lookupQ_cons_ne _ _ _ hk']
        exact ih

theorem lookupQ_append_self {α : Type} [DecidableEq α] (m : List (α × ℚ))
    (k : α) (v : ℚ) (h : m.any (fun kv => decide (kv.1 = k)) = false) :
    lookupQ (m ++ [(k, v)]) k = v := by
  induction m with
  | nil => exact lookupQ_cons_self _ _ _ rfl
  | cons kv rest ih =>
    rw [List.any_cons] at h
    have hk : kv.1 ≠ k := by
      intro he
      have := (Bool.or_eq_false_iff.mp h).1
      rw [he] at this
      simp at this
    have h' : rest.any (fun kv => decide (kv.1 = k)) = false :=
      (Bool.or_eq_false_iff.mp h).2
    rw [List.cons_append, lookupQ_cons_ne _ _ _ hk]
    exact ih h'

theorem lookupQ_append_ne {α : Type} [DecidableEq α] (m : List (α × ℚ))
    (k k' : α) (v : ℚ) (h : k' ≠ k) :
    lookupQ (m ++ [(k, v)]) k' = lookupQ m k' := by
  induction m with
  | nil => exact lookupQ_cons_ne _ _ _ (Ne.symm h)
  | cons kv rest ih =>
    by_cases hk' : kv.1 = k'
    · rw [List.cons_append, lookupQ_cons_self _ _ _ hk', lookupQ_cons_self _ _ _ hk']
    · rw [List.cons_append, lookupQ_cons_ne _ _ _ hk', lookupQ_cons_ne _ _ _ hk']
      exact ih

theorem lookupQ_setKey_self {α : Type} [DecidableEq α] (m : List (α × ℚ))
    (k : α) (v : ℚ) : lookupQ (setKey m k v) k = v := by
  unfold setKey
  split_ifs with hany
  · exact lookupQ_map_overwrite m k v hany
  · have hfalse : m.any (fun kv => decide (kv.1 = k)) = false := by
      cases hb : m.any (fun kv => decide (kv.1 = k)) with
      | false => rfl
      | true => exact absurd hb hany
    exact lookupQ_append_self m k v hfalse

theorem lookupQ_setKey_ne {α : Type} [DecidableEq α] (m : List (α × ℚ))
    (k k' : α) (v : ℚ) (h : k' ≠ k) :
    lookupQ (setKey m k v) k' = lookupQ m k' := by
  unfold setKey
  split_ifs with hany
  · exact lookupQ_map_overwrite_ne m k k' v h
  · exact lookupQ_append_ne m k k' v h

/-- A cleanup that stays under the size cap only removes expired entries. -/
theorem cleanupTable_within_cap {α : Type} [DecidableEq α] (m : List (α × ℚ))
    (now : ℚ) (cap : ℕ)
    (h : (m.filter (fun kv => decide (now < kv.2))).length ≤ cap) :
    cleanupTable m now cap = m.filter (fun kv => decide (now < kv.2)) := by
  simp only [cleanupTable]
  rw [if_neg (not_lt.mpr h)]

/-- Within the size caps, cleanup preserves blockedness: a still-future
deadline survives the expired-entry removal. -/
theorem is_blocked_cleanup_within_caps (c : NegativeCache) (now : ℚ)
    (im om : String)
    (hT : (c.token_until.filter (fun kv => decide (now < kv.2))).length ≤ 50000)
    (hP : (c.pair_until.filter (fun kv => decide (now < kv.2))).length ≤ 200000)
    (hb : c.is_blocked now im om = true) :
    (c.cleanup now 50000 200000).is_blocked now im om = true := by
  simp only [NegativeCache.is_blocked, Bool.or_eq_true, decide_eq_true_eq] at hb ⊢
  simp only [NegativeCache.cleanup, cleanupTable_within_cap _ _ _ hT,
    cleanupTable_within_cap _ _ _ hP]
  rcases hb with (h | h) | h
  · exact Or.inl (Or.inl (by rw [lookupQ_filter_future _ _ _ h]; exact h))
  · exact Or.inl (Or.inr (by rw [lookupQ_filter_future _ _ _ h]; exact h))
  · exact Or.inr (by rw [lookupQ_filter_future _ _ _ h]; exact h)

/-- A token table one entry over the 50,000 cap, holding the blocked mint
with the earliest deadline: the concrete state of the C4 counterexample. -/
def bigTokenTable : List (String × ℚ) :=
  ("MINT", 100) :: (List.range 50000).map (fun i => ("Z" ++ toString i, 200))

theorem zkey_ne_mint (s : String) : ("Z" ++ s) ≠ "MINT" := by
  intro h
  have h1 : ("Z" ++ s).data = "MINT".data := congrArg String.data h
  rw [String.data_append] at h1
  have h2 : ("Z" : String).data = ['Z'] := rfl
  have h3 : ("MINT" : String).data = ['M', 'I', 'N', 'T'] := rfl
  rw [h2, h3] at h1
  simp only [List.cons_append, List.nil_append] at h1
  injection h1 with hc _
  exact absurd hc (by decide)

theorem zkey_ne_out (s : String) : ("Z" ++ s) ≠ "OUT" := by
  intro h
  have h1 : ("Z" ++ s).data = "OUT".data := congrArg String.data h
  rw [String.data_append] at h1
  have h2 : ("Z" : String).data = ['Z'] := rfl
  have h3 : ("OUT" : String).data = ['O', 'U', 'T'] := rfl
  rw [h2, h3] at h1
  simp only [List.cons_append, List.nil_append] at h1
  injection h1 with hc _
  exact absurd hc (by decide)

theorem bigTokenTable_filter :
    bigTokenTable.filter (fun kv => decide ((0:ℚ) < kv.2)) = bigTokenTable := by
  apply List.filter_eq_self.mpr
  intro kv hkv
  simp only [decide_eq_true_eq]
  rcases List.mem_cons.mp hkv with h | h
  · rw [h]
    norm_num
  · obtain ⟨i, _, hi⟩ := List.mem_map.mp h
    rw [← hi]
    norm_num

theorem bigTokenTable_length : bigTokenTable.length = 50001 := by
  show (("MINT", (100:ℚ)) :: (List.range 50000).map
    (fun i => ("Z" ++ toString i, (200:ℚ)))).length = 50001
  rw [List.length_cons, List.length_map, List.length_range]

theorem bigTokenTable_sorted :
    List.Pairwise (fun a b : String × ℚ => decide (a.2 ≤ b.2) = true)
      bigTokenTable := by
  unfold bigTokenTable
  rw [List.pairwise_cons]
  constructor
  · intro b hb
    obtain ⟨i, _, hbi⟩ := List.mem_map.mp hb
    rw [← hbi]
    simp only [decide_eq_true_eq]
    norm_num
  · rw [List.pairwise_map]
    exact List.Pairwise.imp (fun _ => by simp only [decide_eq_true_eq]; norm_num)
      (List.pairwise_lt_range 50000)

/-- The size-cap eviction at the 50,000-entry cap removes the 10,000
oldest deadlines; with the blocked mint holding the earliest deadline it is
among them. -/
theorem bigTokenTable_cleanup :
    cleanupTable bigTokenTable (0:ℚ) 50000 =
      ((List.range 50000).drop 9999).map (fun i => ("Z" ++ toString i, (200:ℚ))) := by
  simp only [cleanupTable]
  rw [bigTokenTable_filter, bigTokenTable_length]
  rw [if_pos (by norm_num)]
  rw [List.mergeSort_of_sorted bigTokenTable_sorted]
  have hdc : max 1 (50001 / 5) = 10000 := by norm_num
  rw [hdc]
  rw [show bigTokenTable =
    ("MINT", (100:ℚ)) :: (List.range 50000).map (fun i => ("Z" ++ toString i, (200:ℚ)))
    from rfl]
  rw [show (10000 : ℕ) = 9999 + 1 from by norm_num, List.drop_succ_cons]
  rw [List.map_drop]

theorem bigTokenTable_blocked :
    NegativeCache.is_blocked ⟨bigTokenTable, []⟩ 0 "MINT" "OUT" = true := by
  have hlk : lookupQ bigTokenTable "MINT" = 100 :=
    lookupQ_cons_self _ _ _ rfl
  simp only [NegativeCache.is_blocked, Bool.or_eq_true, decide_eq_true_eq]
  exact Or.inl (Or.inl (by rw [hlk]; norm_num))

/-- **C4, counterexample**: with the token table one entry over its 50,000
size cap and the blocked mint holding the earliest deadline, a
`quote_exact_in` call made while the mint is blocked (deadline 100 > now = 0)
runs `_maybe_cleanup`, whose size-cap eviction drops the still-future
deadline; the fast path then finds nothing blocked and the call proceeds to
issue the HTTP request — refuting the claim that no request is issued while
a deadline is in the future. -/
theorem negative_cache_sizecap_breaks_fast_path :
    NegativeCache.is_blocked ⟨bigTokenTable, []⟩ 0 "MINT" "OUT" = true ∧
    (quote_exact_in_start true ⟨bigTokenTable, []⟩ 0 "MINT" "OUT" 5).1 =
      QuoteStart.request := by
  refine ⟨bigTokenTable_blocked, ?_⟩
  have h1 : ¬(("MINT" : String) = "" ∨ ("OUT" : String) = "") := by decide
  have h2 : ¬(5 : ℤ) ≤ 0 := by norm_num
  have hclean : NegativeCache.cleanup ⟨bigTokenTable, []⟩ 0 50000 200000 =
      ⟨((List.range 50000).drop 9999).map (fun i => ("Z" ++ toString i, (200:ℚ))), []⟩ := by
    have hp : cleanupTable ([] : List ((String × String) × ℚ)) (0:ℚ) 200000 = [] := rfl
    simp only [NegativeCache.cleanup, bigTokenTable_cleanup, hp]
  have hnoM : lookupQ (((List.range 50000).drop 9999).map
      (fun i => ("Z" ++ toString i, (200:ℚ)))) "MINT" = 0 := by
    unfold lookupQ
    rw [List.find?_eq_none.mpr ?_]
    · rfl
    · intro x hx
      obtain ⟨i, _, hxi⟩ := List.mem_map.mp hx
      rw [← hxi]
      simp only [decide_eq_true_eq]
      exact zkey_ne_mint (toString i)
  have hnoO : lookupQ (((List.range 50000).drop 9999).map
      (fun i => ("Z" ++ toString i, (200:ℚ)))) "OUT" = 0 := by
    unfold lookupQ
    rw [List.find?_eq_none.mpr ?_]
    · rfl
    · intro x hx
      obtain ⟨i, _, hxi⟩ := List.mem_map.mp hx
      rw [← hxi]
      simp only [decide_eq_true_eq]
      exact zkey_ne_out (toString i)
  have hnb : NegativeCache.is_blocked
      ⟨((List.range 50000).drop 9999).map (fun i => ("Z" ++ toString i, (200:ℚ))), []⟩
      0 "MINT" "OUT" = false := by
    have h00 : ¬((0:ℚ) < 0) := lt_irrefl 0
    simp only [NegativeCache.is_blocked, hnoM, hnoO, lookupQ_nil,
      decide_eq_false h00, Bool.or_false]
  simp only [quote_exact_in_start, if_neg h1, if_neg h2, if_true, hclean, hnb,
    Bool.false_eq_true, if_false]

/-- **C4 (amended)**: a call made while the input mint, the output mint, or
the pair has a negative-cache deadline in the future issues no HTTP request
(returning `None` on the blocked fast path) provided the probabilistic
cleanup does not run on that call, or runs while the token and pair tables
(after expired-entry removal) are within their 50,000/200,000 size caps —
the caps' eviction may otherwise discard still-future deadlines; blocked
means a deadline strictly in the future for either mint or the pair; and
`block_token` / `block_pair` never move a stored deadline backwards. -/
theorem negative_cache_idempotent_monotone :
    (∀ (doCleanup : Bool) (c : NegativeCache) (now : ℚ) (im om : String) (amt : ℤ),
      c.is_blocked now im om = true →
      (doCleanup = false ∨
        ((c.token_until.filter (fun kv => decide (now < kv.2))).length ≤ 50000 ∧
         (c.pair_until.filter (fun kv => decide (now < kv.2))).length ≤ 200000)) →
      (quote_exact_in_start doCleanup c now im om amt).1 ≠ QuoteStart.request) ∧
    (∀ (c : NegativeCache) (now : ℚ) (im om : String),
      c.is_blocked now im om = true ↔
        (now < lookupQ c.token_until im ∨ now < lookupQ c.token_until om ∨
          now < lookupQ c.pair_until (im, om))) ∧
    (∀ (c : NegativeCache) (now : ℚ) (mint : String) (ttl : ℚ) (m : String),
      lookupQ c.token_until m ≤ lookupQ (c.block_token now mint ttl).token_until m) ∧
    (∀ (c : NegativeCache) (now : ℚ) (im om : String) (ttl : ℚ) (k : String × String),
      lookupQ c.pair_until k ≤ lookupQ (c.block_pair now im om ttl).pair_until k) := by
  refine ⟨?_, ?_, ?_, ?_⟩
  · intro doCleanup c now im om amt hb hside
    by_cases h1 : im = "" ∨ om = ""
    · simp [quote_exact_in_start, h1]
    · by_cases h2 : amt ≤ 0
      · simp [quote_exact_in_start, h1, h2]
      · have hb' : (if doCleanup then c.cleanup now 50000 200000 else c).is_blocked
            now im om = true := by
          cases doCleanup with
          | false => simpa using hb
          | true =>
            rcases hside with hfalse | ⟨hT, hP⟩
            · cases hfalse
            · simpa using is_blocked_cleanup_within_caps c now im om hT hP hb
        simp only [quote_exact_in_start, if_neg h1, if_neg h2, if_pos hb']
        intro h
        cases h
  · intro c now im om
    simp [NegativeCache.is_blocked, or_assoc]
  · intro c now mint ttl m
    by_cases harg : mint = ""
    · simp [NegativeCache.block_token, harg]
    · by_cases hlt : lookupQ c.token_until mint < now + max 1 ttl
      · by_cases hm : m = mint
        · simp only [NegativeCache.block_token, if_neg harg, if_pos hlt]
          rw [hm, lookupQ_setKey_self]
          exact le_of_lt hlt
        · simp only [NegativeCache.block_token, if_neg harg, if_pos hlt]
          rw [lookupQ_setKey_ne _ _ _ _ hm]
      · simp only [NegativeCache.block_token, if_neg harg, if_neg hlt]
        exact le_refl _
  · intro c now im om ttl k
    by_cases hlt : lookupQ c.pair_until (im, om) < now + max 1 ttl
    · by_cases hk : k = (im, om)
      · simp only [NegativeCache.block_pair, if_pos hlt]
        rw [hk, lookupQ_setKey_self]
        exact le_of_lt hlt
      · simp only [NegativeCache.block_pair, if_pos hlt]
        rw [lookupQ_setKey_ne _ _ _ _ hk]
    · simp only [NegativeCache.block_pair, if_neg hlt]
      exact le_refl _

theorem negative_cache_idempotent_monotone_witness :
    (NegativeCache.is_blocked ⟨[("A", 10)], []⟩ 0 "A" "B" = true) ∧
    ((([("A", (10:ℚ))] : List (String × ℚ)).filter
        (fun kv => decide ((0:ℚ) < kv.2))).length ≤ 50000 ∧
      (([] : List ((String × String) × ℚ)).filter
        (fun kv => decide ((0:ℚ) < kv.2))).length ≤ 200000) ∧
    (quote_exact_in_start true ⟨[("A", 10)], []⟩ 0 "A" "B" 5).1 ≠
      QuoteStart.request :=
  ⟨by decide, ⟨by decide, by decide⟩,
   negative_cache_idempotent_monotone.1 true ⟨[("A", 10)], []⟩ 0 "A" "B" 5
     (by decide) (Or.inr ⟨by decide, by decide⟩)⟩

/-- **C10**: `quote_exact_in` with an empty input mint, an empty output mint,
or `amount_raw ≤ 0` returns `None` immediately: the `earlyNone` outcome,
which precedes `_maybe_cleanup`, the negative-cache check, the HTTP request,
all retries, all negative-cache writes and the skip callback — and the
cache is returned untouched, whether or not the cleanup draw fired. -/
theorem quote_exact_in_early_none :
    ∀ (doCleanup : Bool) (c : NegativeCache) (now : ℚ)
        (im om : String) (amt : ℤ),
      quote_exact_in_start doCleanup c now im om amt = (QuoteStart.earlyNone, c) ↔
        (im = "" ∨ om = "" ∨ amt ≤ 0) := by
  intro doCleanup c now im om amt
  by_cases h1 : im = "" ∨ om = ""
  · simp only [quote_exact_in_start, if_pos h1]
    constructor
    · intro _
      rcases h1 with h | h
      · exact Or.inl h
      · exact Or.inr (Or.inl h)
    · intro _
      trivial
  · by_cases h2 : amt ≤ 0
    · simp only [quote_exact_in_start, if_neg h1, if_pos h2]
      constructor
      · intro _
        exact Or.inr (Or.inr h2)
      · intro _
        trivial
    · have hrhs : ¬(im = "" ∨ om = "" ∨ amt ≤ 0) := by
        push_neg at h1 h2 ⊢
        exact ⟨h1.1, h1.2, h2⟩
      simp only [quote_exact_in_start, if_neg h1, if_neg h2]
      by_cases h3 : (if doCleanup then c.cleanup now 50000 200000 else c).is_blocked
          now im om = true
      · rw [if_pos h3]
        constructor
        · intro h
          injection h with ha hb
          cases ha
        · intro h
          exact absurd h hrhs
      · rw [if_neg h3]
        constructor
        · intro h
          injection h with ha hb
          cases ha
        · intro h
          exact absurd h hrhs

/-! ## WebSocket cluster sharding (src/core/ws_cluster.py) -/

/-- `chunked(seq, size)` from `src/utils/collections.py`, with the step
clamped to ≥ 1 as `BybitWSCluster` guarantees
(`max_symbols_per_ws = max(1, int(...))`).  `chunkedFuel` is the same
recursion driven by a fuel counter so that it is structural; `chunked`
instantiates the fuel with the list length, which always suffices. -/
def chunkedFuel {α : Type} : ℕ → ℕ → List α → List (List α)
  | 0, _, _ => []
  | _ + 1, _, [] => []
  | fuel + 1, s, x :: xs =>
    (x :: xs).take (max 1 s) :: chunkedFuel fuel s ((x :: xs).drop (max 1 s))

def chunked {α : Type} (s : ℕ) (l : List α) : List (List α) :=
  chunkedFuel l.length s l

theorem chunkedFuel_congr {α : Type} (s : ℕ) :
    ∀ (f1 f2 : ℕ) (l : List α), l.length ≤ f1 → l.length ≤ f2 →
      chunkedFuel f1 s l = chunkedFuel f2 s l := by
  intro f1
  induction f1 with
  | zero =>
    intro f2 l h1 h2
    have : l = [] := List.length_eq_zero.mp (Nat.le_zero.mp h1)
    subst this
    cases f2 <;> rfl
  | succ f1' ih =>
    intro f2 l h1 h2
    cases l with
    | nil => cases f2 <;> rfl
    | cons x xs =>
      cases f2 with
      | zero => exact absurd h2 (by simp)
      | succ f2' =>
        simp only [chunkedFuel]
        congr 1
        apply ih
        · simp only [List.length_drop, List.length_cons] at h1 ⊢
          have hs : 1 ≤ max 1 s := le_max_left _ _
          omega
        · simp only [List.length_drop, List.length_cons] at h2 ⊢
          have hs : 1 ≤ max 1 s := le_max_left _ _
          omega

theorem chunked_nil {α : Type} (s : ℕ) : chunked s ([] : List α) = [] := rfl

theorem chunked_cons {α : Type} (s : ℕ) (x : α) (xs : List α) :
    chunked s (x :: xs) =
      (x :: xs).take (max 1 s) :: chunked s ((x :: xs).drop (max 1 s)) := by
  simp only [chunked, List.length_cons, chunkedFuel]
  congr 1
  apply chunkedFuel_congr
  · simp only [List.length_drop, List.length_cons]
    have hs : 1 ≤ max 1 s := le_max_left _ _
    omega
  · exact le_refl _

/-- Number of chunks: `⌈n / s⌉` for `n` items in chunks of `s ≥ 1`,
written `(n + s − 1) / s` over ℕ. -/
theorem chunked_length {α : Type} (s : ℕ) (l : List α) :
    (chunked s l).length = (l.length + max 1 s - 1) / max 1 s := by
  have hs : 1 ≤ max 1 s := le_max_left _ _
  have hzero : (0 + max 1 s - 1) / max 1 s = 0 := Nat.div_eq_of_lt (by omega)
  suffices h : ∀ (f : ℕ) (l' : List α), l'.length ≤ f →
      (chunked s l').length = (l'.length + max 1 s - 1) / max 1 s by
    exact h l.length l (le_refl _)
  intro f
  induction f with
  | zero =>
    intro l' h1
    have hl : l' = [] := List.length_eq_zero.mp (Nat.le_zero.mp h1)
    subst hl
    simp only [chunked_nil, List.length_nil]
    rw [hzero]
  | succ f' ih =>
    intro l' h1
    cases l' with
    | nil =>
      simp only [chunked_nil, List.length_nil]
      rw [hzero]
    | cons x xs =>
      rw [chunked_cons]
      simp only [List.length_cons]
      rw [ih ((x :: xs).drop (max 1 s))
        (by simp only [List.length_drop, List.length_cons] at h1 ⊢; omega)]
      simp only [List.length_drop, List.length_cons]
      rcases le_or_lt (xs.length + 1) (max 1 s) with hle | hlt
      · have h0 : xs.length + 1 - max 1 s = 0 := by omega
        rw [h0, hzero]
        have e2 : xs.length + 1 + max 1 s - 1 = (xs.length + 1 - 1) + max 1 s := by omega
        rw [e2, Nat.add_div_right _ (show 0 < max 1 s by omega)]
        have e3 : (xs.length + 1 - 1) / max 1 s = 0 := Nat.div_eq_of_lt (by omega)
        rw [e3]
      · have e4 : xs.length + 1 - max 1 s + max 1 s - 1 = xs.length + 1 - 1 := by omega
        have e3 : xs.length + 1 + max 1 s - 1 = (xs.length + 1 - 1) + max 1 s := by omega
        rw [e4, e3, Nat.add_div_right _ (show 0 < max 1 s by omega)]

/-- Desired-symbol state of `BybitWSCluster.update_symbols(symbols)`: each
client is represented by its desired symbol list.  The shard list is
`chunked(symbols, max_symbols_per_ws)`; clients are created (with an empty
desired set) until there is one per shard, never destroyed; client `i` is
then assigned shard `i`, and every surplus client an empty list. -/
def updateSymbols (clients : List (List String)) (symbols : List String)
    (maxPer : ℕ) : List (List String) :=
  let shards := chunked maxPer symbols
  let grown := clients ++ List.replicate (shards.length - clients.length) ([] : List String)
  (List.range grown.length).map fun i => shards.getD i []

theorem updateSymbols_getD (clients : List (List String)) (symbols : List String)
    (maxPer : ℕ) (i : ℕ) :
    (updateSymbols clients symbols maxPer).getD i [] =
      if i < clients.length + ((chunked maxPer symbols).length - clients.length) then
        (chunked maxPer symbols).getD i []
      else [] := by
  unfold updateSymbols
  have hlen : (clients ++ List.replicate
      ((chunked maxPer symbols).length - clients.length) ([] : List String)).length =
      clients.length + ((chunked maxPer symbols).length - clients.length) := by
    simp
  split_ifs with hi
  · rw [List.getD_eq_getD_get?, List.get?_eq_getElem?, List.getElem?_map, List.getElem?_range (by rw [hlen]; exact hi)]
    simp [List.getD_eq_getD_get?]
  · apply List.getD_eq_default
    simp only [List.length_map, List.length_range, hlen]
    omega

/-- **C9, counterexample**: clients are never torn down, so after a shrink
the client count can exceed `ceil(|symbols|/max_symbols_per_ws)`: growing to
two clients for two symbols at one symbol per client and then updating with
a single symbol leaves two clients while the ceiling is one. -/
theorem ws_cluster_count_not_ceil :
    (updateSymbols (updateSymbols [] ["A", "B"] 1) ["A"] 1).length = 2 ∧
    (["A"].length + max 1 1 - 1) / max 1 1 = 1 := by
  constructor
  · rfl
  · rfl

/-- **C9 (amended)**: after `update_symbols(symbols)` the number of clients
is `max(previous count, ceil(|symbols|/max_symbols_per_ws))`: it equals the
ceiling whenever the cluster did not previously have more clients, it never
decreases (no client is torn down on a shrink), and every surplus client's
desired set is emptied. -/
theorem ws_cluster_update_spec (clients : List (List String))
    (symbols : List String) (maxPer : ℕ) :
    ((updateSymbols clients symbols maxPer).length =
      max clients.length ((symbols.length + max 1 maxPer - 1) / max 1 maxPer)) ∧
    (clients.length ≤ (updateSymbols clients symbols maxPer).length) ∧
    (∀ i, (chunked maxPer symbols).length ≤ i →
      (updateSymbols clients symbols maxPer).getD i [] = []) ∧
    (∀ i, i < (chunked maxPer symbols).length →
      (updateSymbols clients symbols maxPer).getD i [] =
        (chunked maxPer symbols).getD i []) := by
  have hlen : (updateSymbols clients symbols maxPer).length =
      clients.length + ((chunked maxPer symbols).length - clients.length) := by
    unfold updateSymbols
    simp
  refine ⟨?_, ?_, ?_, ?_⟩
  · rw [hlen, ← chunked_length maxPer symbols]
    omega
  · rw [hlen]
    omega
  · intro i hi
    rw [updateSymbols_getD]
    split_ifs with hin
    · exact List.getD_eq_default _ _ hi
    · rfl
  · intro i hi
    rw [updateSymbols_getD]
    rw [if_pos (by omega)]

theorem ws_cluster_update_spec_witness :
    ((updateSymbols [["A"], ["B"], ["C"]] ["X", "Y", "Z"] 2).length =
      max [["A"], ["B"], ["C"]].length
        ((["X", "Y", "Z"].length + max 1 2 - 1) / max 1 2)) ∧
    ([["A"], ["B"], ["C"]].length ≤
      (updateSymbols [["A"], ["B"], ["C"]] ["X", "Y", "Z"] 2).length) ∧
    ((chunked 2 ["X", "Y", "Z"]).length ≤ 2 ∧
      (updateSymbols [["A"], ["B"], ["C"]] ["X", "Y", "Z"] 2).getD 2 [] = []) ∧
    ((0 : ℕ) < (chunked 2 ["X", "Y", "Z"]).length ∧
      (updateSymbols [["A"], ["B"], ["C"]] ["X", "Y", "Z"] 2).getD 0 [] =
        (chunked 2 ["X", "Y", "Z"]).getD 0 []) :=
  ⟨(ws_cluster_update_spec [["A"], ["B"], ["C"]] ["X", "Y", "Z"] 2).1,
   (ws_cluster_update_spec [["A"], ["B"], ["C"]] ["X", "Y", "Z"] 2).2.1,
   ⟨by decide,
    (ws_cluster_update_spec [["A"], ["B"], ["C"]] ["X", "Y", "Z"] 2).2.2.1 2 (by decide)⟩,
   ⟨by decide,
    (ws_cluster_update_spec [["A"], ["B"], ["C"]] ["X", "Y", "Z"] 2).2.2.2 0 (by decide)⟩⟩

/-! ## Quarantine sync (src/core/quarantine.py, src/core/quarantine_manager.py) -/

/-- Outcome of opening and parsing the quarantine YAML file. -/
inductive ReadOutcome
  | ok (entries : List (String × ℤ))
  | fileNotFound
  | readError

/-- `load_quarantine`: a missing file and *any* other read or parse error
both yield the empty mapping — the function swallows every exception
(`except FileNotFoundError: return {}` and `except Exception: return {}`),
so a failed read is indistinguishable from an empty file. -/
def load_quarantine : ReadOutcome → List (String × ℤ)
  | .ok entries => entries
  | .fileNotFound => []
  | .readError => []

/-- `prune_expired(q, ts)`: keep exactly the entries with `until_ts > ts`. -/
def prune_expired (q : List (String × ℤ)) (ts : ℤ) : List (String × ℤ) :=
  q.filter (fun e => ts < e.2)

/-- One tick of `QuarantineManager.sync_loop` once the file mtime changed,
as the update of the in-memory `quarantined_set`: the try-block computes
`new_set = set(prune_expired(load_quarantine(path)).keys())`, and an
exception escaping the block (e.g. the re-save failing) is logged and
leaves `new_set = set()`; the lock-block then replaces the in-memory set
with `new_set` whenever anything was added or removed.  The active symbol
list and token map are rebuilt from the resulting set. -/
def sync_tick (r : ReadOutcome) (ts : ℤ) (ioException : Bool)
    (before : Finset String) : Finset String :=
  let new_set : Finset String :=
    if ioException then ∅
    else ((prune_expired (load_quarantine r) ts).map Prod.fst).toFinset
  if new_set ≠ before then new_set else before

/-- **C1, code evaluation at the failing input**: a sync tick whose file
read fails computes `new_set = ∅` (`load_quarantine` returns `{}` on any
read error; an exception escaping the try-block likewise sets
`new_set = set()`), and the non-empty in-memory quarantined set
`{"BTCUSDT"}` is then replaced by the empty set rather than kept — the
claim (and the spec) require it to be unchanged with the error only
logged. -/
theorem quarantine_sync_read_error_wipes_set :
    sync_tick .readError 0 false {"BTCUSDT"} = ∅ ∧
    sync_tick (.ok [("BTCUSDT", 100)]) 0 true {"BTCUSDT"} = ∅ ∧
    ({"BTCUSDT"} : Finset String) ≠ ∅ := by
  refine ⟨?_, ?_, ?_⟩ <;> decide

end MarketAnalyzer
